import Mathlib

/-!
Verification of the insurance-claims pipeline core: the claim aggregate,
the stage agents (registration, rule-based validation, fraud scoring,
investigator assignment, manager decision), the workflow router of
`claim_graph_v3`, and the tolerant JSON response parser `safe_json_parse`.
Python floats are modelled as exact rationals plus `nan` and the two
infinities; machine strings are Lean `String`s; fallible code returns
`Option`/`Except`.
-/

namespace InsClaims

/-- Python `float` values as they occur in this codebase: finite values are
modelled as exact rationals (an idealisation of IEEE doubles — every literal
appearing in the source is exactly representable), plus `nan`, `inf`, `-inf`. -/
inductive PyFloat where
  | finite (q : Rat)
  | nan
  | inf
  | ninf
deriving DecidableEq

/-- Python `<` on floats: any comparison with `nan` is `False`. -/
def PyFloat.lt : PyFloat → PyFloat → Bool
  | .nan, _ => false
  | _, .nan => false
  | .finite a, .finite b => decide (a < b)
  | .finite _, .inf => true
  | .finite _, .ninf => false
  | .inf, _ => false
  | .ninf, .ninf => false
  | .ninf, _ => true

/-- Python `>` on floats: any comparison with `nan` is `False`. -/
def PyFloat.gt (a b : PyFloat) : Bool := PyFloat.lt b a

/-- Python `>=` on floats: any comparison with `nan` is `False`. -/
def PyFloat.ge : PyFloat → PyFloat → Bool
  | .nan, _ => false
  | _, .nan => false
  | .finite a, .finite b => decide (b ≤ a)
  | .finite _, .inf => false
  | .finite _, .ninf => true
  | .inf, _ => true
  | .ninf, .ninf => true
  | .ninf, _ => false

/-- Python truthiness of a float: only `0.0` is falsy (`nan` is truthy). -/
def PyFloat.truthy : PyFloat → Bool
  | .finite q => decide (q ≠ 0)
  | _ => true

/-- Python truthiness of an `Optional[str]`: `None` and `""` are falsy. -/
def optStrTruthy : Option String → Bool
  | none => false
  | some s => decide (s ≠ "")

/-- Whitespace characters stripped by Python `str.strip()` (ASCII range). -/
def isPyWs (c : Char) : Bool :=
  c = ' ' || c = '\t' || c = '\n' || c = '\r' || c = Char.ofNat 11 || c = Char.ofNat 12

/-- Python `str.strip()` on the ASCII whitespace set, on char lists. -/
def stripL (cs : List Char) : List Char :=
  ((cs.dropWhile isPyWs).reverse.dropWhile isPyWs).reverse

/-- Python `str.strip()` on the ASCII whitespace set. -/
def strip (s : String) : String := ⟨stripL s.data⟩

/-- ASCII-range model of Python `str.upper` on one character. -/
def upChar (c : Char) : Char :=
  if 97 ≤ c.toNat ∧ c.toNat ≤ 122 then Char.ofNat (c.toNat - 32) else c

/-- ASCII-range model of Python `str.upper`. -/
def upper (s : String) : String := ⟨s.data.map upChar⟩

/-- ASCII-range model of Python `str.lower` on one character. -/
def lowChar (c : Char) : Char :=
  if 65 ≤ c.toNat ∧ c.toNat ≤ 90 then Char.ofNat (c.toNat + 32) else c

/-- ASCII-range model of Python `str.lower`. -/
def lower (s : String) : String := ⟨s.data.map lowChar⟩

/-- Case-insensitive equality of strings, as uppercased comparison. -/
def ciEq (a b : String) : Bool := upper a == upper b

/-- `DocumentRecord` of `backend/state/claim_state.py`. -/
structure DocumentRecord where
  filename : String
  content_type : String
  size_bytes : Int
  doc_type : Option String := none
  extracted_text : Option String := none
deriving DecidableEq

/-- `ValidationResult` of `backend/state/claim_state.py`. -/
structure ValidationResult where
  required_missing : List String := []
  warnings : List String := []
  errors : List String := []
  docs_ok : Bool := false
deriving DecidableEq

/-- `ClaimState` of `backend/state/claim_state.py` (the fields the verified
stages read or write; `assignment_done` is the attribute `investigator_agent`
writes on assignment). Defaults mirror the pydantic model. -/
structure ClaimState where
  transaction_id : Option String := none
  claim_id : Option String := none
  customer_name : Option String := none
  policy_number : Option String := none
  amount : Option PyFloat := none
  claim_type : Option String := none
  extracted_text : Option String := none
  documents : List DocumentRecord := []
  validation : ValidationResult := {}
  claim_registered : Bool := false
  registered_at : Option String := none
  claim_validated : Bool := false
  fraud_checked : Bool := false
  fraud_score : Option PyFloat := none
  fraud_decision : Option String := none
  claim_decision_made : Bool := false
  claim_approved : Bool := false
  payment_processed : Bool := false
  claim_closed : Bool := false
  final_decision : Option String := none
  logs : List String := []
  assignment_done : Bool := false
deriving DecidableEq

/-- A fresh claim aggregate: every pydantic default. -/
def ClaimState.init : ClaimState := {}

/-! ## Rule-based validation (`_fallback_validation`, llm_validation_agent.py) -/

/-- `(state.claim_type or "").lower()` of `_fallback_validation`. -/
def claimKey (claim_type : Option String) : String :=
  lower (match claim_type with | none => ("") | some s => s)

/-- The required document types for a claim type, from `_fallback_validation`:
the claim key looked up in the literal dict with the literal default list. -/
def requiredFor (claim_type : Option String) : List String :=
  if claimKey claim_type = "motor" then
    [("fir"), ("itemized_invoice"), ("payment_receipt"), ("id_proof")]
  else if claimKey claim_type = "health" then
    [("discharge_summary"), ("itemized_invoice"), ("payment_receipt"), ("id_proof")]
  else [("itemized_invoice"), ("payment_receipt"), ("id_proof")]

/-- The set comprehension `{d.doc_type for d in state.documents if d.doc_type}`
as the list of truthy doc types in document order. -/
def presentTypes (docs : List DocumentRecord) : List String :=
  docs.filterMap fun d =>
    match d.doc_type with
    | none => none
    | some t => if t = "" then none else some t

/-- `_fallback_validation` of `backend/agents/llm_validation_agent.py`. -/
def fallback_validation (s : ClaimState) : ClaimState :=
  let required := requiredFor s.claim_type
  let present := presentTypes s.documents
  let missing := required.filter fun r => !(decide (r ∈ present))
  { s with
    validation := { required_missing := missing, warnings := [], errors := [],
                    docs_ok := missing.isEmpty }
    claim_validated := missing.isEmpty
    logs := s.logs ++ [("[validation_llm] Fallback rule-based used.")] }

/-! ## Registration (`backend/agents/registration_agent.py`) -/

/-- `MAX_TEXT_LEN` of registration_agent.py. -/
def MAX_TEXT_LEN : Nat := 50000

/-- Python `"\n\n".join xs`. -/
def joinNN : List String → String
  | [] => ("")
  | [x] => x
  | x :: xs => x ++ ("\n\n") ++ joinNN xs

/-- `_aggregate_extracted_text` of registration_agent.py: the truthy
`state.extracted_text` followed by each document's truthy `extracted_text`,
each stripped, blanks dropped, joined with a blank line, truncated to
`MAX_TEXT_LEN` characters. -/
def aggregate_extracted_text (s : ClaimState) : String :=
  let parts :=
    (match s.extracted_text with
     | none => []
     | some t => if t = "" then [] else [t]) ++
    s.documents.filterMap fun d =>
      match d.extracted_text with
      | none => none
      | some t => if t = "" then none else some t
  let kept := (parts.filter fun p => !(p = "") && !(strip p = "")).map strip
  let combined := joinNN kept
  if combined = "" then ("") else ⟨combined.data.take MAX_TEXT_LEN⟩

/-- `registration_agent` of registration_agent.py. `freshId` stands for
`uuid.uuid4()`, `now` for the current UTC timestamp, and `dbOk` for whether
the two persistence calls succeed; the DB writes themselves are external. -/
def registration_agent (freshId now : String) (dbOk : Bool) (s : ClaimState) : ClaimState :=
  let s1 := if optStrTruthy s.transaction_id then s else { s with transaction_id := some freshId }
  let s2 := { s1 with claim_registered := true }
  let s3 := if optStrTruthy s2.registered_at then s2 else { s2 with registered_at := some now }
  let agg := aggregate_extracted_text s3
  let s4 := if agg = "" then s3 else { s3 with extracted_text := some agg }
  if dbOk then
    { s4 with logs := s4.logs ++
        [("[registration] saved tx=") ++ (match s4.transaction_id with
                                          | none => ("None") | some t => t)] }
  else
    { s4 with logs := s4.logs ++ [("[registration] db_error=Exception")] }

/-! ## Workflow router after fraud scoring (`backend/graph/claim_graph_v3.py`) -/

/-- `FRAUD_ESCALATION_THRESHOLD` of claim_graph_v3.py. -/
def FRAUD_ESCALATION_THRESHOLD : PyFloat := .finite (mkRat 7 10)

/-- `HIGH_AMOUNT_THRESHOLD` of claim_graph_v3.py. -/
def HIGH_AMOUNT_THRESHOLD : PyFloat := .finite (mkRat 300000 1)

/-- The two targets of the conditional edge after the fraud node. -/
inductive Route where
  | investigator
  | manager
deriving DecidableEq

/-- `route_after_fraud` of claim_graph_v3.py. `float(state.amount or 0.0)`
maps a missing or falsy amount to `0.0`; comparing `state.fraud_score` when
it is `None` raises `TypeError`, modelled as `none`. -/
def route_after_fraud (s : ClaimState) : Option Route :=
  let amt : PyFloat :=
    match s.amount with
    | none => .finite 0
    | some a => if a.truthy then a else .finite 0
  match s.fraud_score with
  | none => none
  | some fs =>
      some (if fs.ge FRAUD_ESCALATION_THRESHOLD || amt.gt HIGH_AMOUNT_THRESHOLD
            then .investigator else .manager)

/-! ## Manager Decision (`backend/agents/manager_agent.py`) -/

/-- `ManagerAgent.decide_next_step`. -/
def decide_next_step (s : ClaimState) : String :=
  if !s.claim_registered then ("registration_agent")
  else if !s.claim_validated then ("validation_agent")
  else if !s.fraud_checked then ("fraud_agent")
  else if !s.claim_decision_made then ("decision_agent")
  else if s.claim_approved && !s.payment_processed then ("payment_agent")
  else if s.payment_processed && !s.claim_closed then ("closure_agent")
  else ("end")

/-- `ManagerAgent.finalize_claim`: first-match decision table. The pydantic
field `state.validation` is always a `ValidationResult` instance and hence
always truthy in Python, so `not state.validation` never fires and the first
branch reduces to the `docs_ok` test; the DB write is external (its failure is
swallowed). Returns the mutated state and the mirrored `status` value. -/
def finalize_claim (s : ClaimState) : ClaimState × String :=
  if !s.validation.docs_ok then
    ({ s with final_decision := some ("PENDING_DOCUMENTS") }, ("PENDING_DOCUMENTS"))
  else if (match s.fraud_score with
           | none => false
           | some fs => fs.ge (.finite (mkRat 7 10))) then
    ({ s with final_decision := some ("ESCALATED_TO_SIU") }, ("UNDER_INVESTIGATION"))
  else if s.claim_approved then
    ({ s with final_decision := some ("APPROVED") }, ("APPROVED"))
  else
    ({ s with final_decision := some ("REJECTED") }, ("REJECTED"))

/-- The dict returned by `ManagerAgent.run`. -/
structure ManagerRunOut where
  next_step : String
  final_decision : Option String
deriving DecidableEq

/-- `ManagerAgent.run`, the node the v3 graph executes as the Manager
Decision stage: it finalizes only when `decide_next_step` returns `"end"`. -/
def manager_run (s : ClaimState) : ClaimState × ManagerRunOut :=
  let next_step := decide_next_step s
  let s' := if next_step = "end" then (finalize_claim s).1 else s
  (s', { next_step := next_step, final_decision := s'.final_decision })

/-! ## Investigator pool (`backend/db/investigator_store.py`) -/

/-- One row of the `investigators` table. -/
structure Investigator where
  investigator_id : String
  name : String
  specialization : Option String
  active_cases : Int
  max_cases : Int
  status : String
deriving DecidableEq

/-- A row satisfying the `WHERE` clause of `get_available_investigator`:
`specialization = ?` (SQL equality, never satisfied by a NULL on either
side), `status = 'ACTIVE'`, `active_cases < max_cases`. -/
def eligibleRow (ct : String) (i : Investigator) : Bool :=
  i.specialization == some ct && i.status == ("ACTIVE") &&
    decide (i.active_cases < i.max_cases)

/-- `ORDER BY active_cases ASC LIMIT 1` over the eligible rows: the first row
in table order attaining the minimal `active_cases` (models SQLite's stable
choice among ties for this query). -/
def pickMinActive : List Investigator → Option Investigator
  | [] => none
  | i :: rest =>
      match pickMinActive rest with
      | none => some i
      | some j => if j.active_cases < i.active_cases then some j else some i

/-- `get_available_investigator` of investigator_store.py, over an explicit
pool standing for the `investigators` table. -/
def get_available_investigator (claim_type : Option String)
    (pool : List Investigator) : Option String :=
  match claim_type with
  | none => none
  | some ct => (pickMinActive (pool.filter (eligibleRow ct))).map (·.investigator_id)

/-- `increment_investigator_load` of investigator_store.py. -/
def increment_investigator_load (iid : String) (pool : List Investigator) :
    List Investigator :=
  pool.map fun i =>
    if i.investigator_id = iid then { i with active_cases := i.active_cases + 1 } else i

/-- The row the investigator agent writes into the claims table via
`update_claim_fields` on assignment. -/
structure AssignmentRecord where
  investigator_id : String
  assignment_reason : String
  assignment_status : String
deriving DecidableEq

/-- `investigator_agent` of backend/agents/investigator_agent.py: guards on
`fraud_checked`, then on `fraud_score is None or fraud_score < 0.7`, then
selects and increments an investigator and records the assignment. Returns
the updated state, the updated pool, and the claims-DB assignment write. -/
def investigator_agent (pool : List Investigator) (s : ClaimState) :
    ClaimState × List Investigator × Option AssignmentRecord :=
  if !s.fraud_checked then
    ({ s with logs := s.logs ++ [("[investigator] Fraud not checked")] }, pool, none)
  else if (match s.fraud_score with
           | none => true
           | some fs => fs.lt (.finite (mkRat 7 10))) then
    ({ s with logs := s.logs ++ [("[investigator] No escalation required")] }, pool, none)
  else
    match get_available_investigator s.claim_type pool with
    | none =>
        ({ s with logs := s.logs ++ [("[investigator] No available investigator")] },
         pool, none)
    | some iid =>
        let pool' := increment_investigator_load iid pool
        ({ s with logs := s.logs ++ [("[investigator] Assigned ") ++ iid],
                  assignment_done := true },
         pool',
         some { investigator_id := iid, assignment_reason := ("High fraud risk"),
                assignment_status := ("ASSIGNED") })

/-! ## Concurrent assignment requests (claim C3)

`investigator_agent` touches the pool in two separate SQLite transactions:
first `get_available_investigator` (read), then `increment_investigator_load`
(write). Concurrent claims may interleave these. One request is modelled by
its two atomic pool operations in program order; a schedule names which
request takes the next step. -/

/-- The per-request progress of one assignment request: its claim type, the
selection it has read (once the first step ran), and whether it finished. -/
structure ReqState where
  claim_type : Option String
  selected : Option (Option String) := none
  done : Bool := false
deriving DecidableEq

/-- One scheduler step: request `k` runs its next atomic pool operation
(selection, then increment when a selection was read; a request whose
selection came back empty just finishes). -/
def stepReq (pool : List Investigator) (reqs : List ReqState) (k : Nat) :
    List Investigator × List ReqState :=
  match reqs[k]? with
  | none => (pool, reqs)
  | some r =>
      if r.done then (pool, reqs)
      else
        match r.selected with
        | none =>
            (pool, reqs.set k { r with selected := some (get_available_investigator r.claim_type pool) })
        | some none => (pool, reqs.set k { r with done := true })
        | some (some iid) =>
            (increment_investigator_load iid pool, reqs.set k { r with done := true })

/-- Run a schedule of request indices against the pool. -/
def runSched (pool : List Investigator) (reqs : List ReqState) :
    List Nat → List Investigator × List ReqState
  | [] => (pool, reqs)
  | k :: ks =>
      let pr := stepReq pool reqs k
      runSched pr.1 pr.2 ks

/-- The capacity invariant of the investigator pool. -/
def capacityOk (pool : List Investigator) : Bool :=
  pool.all fun i => decide (i.active_cases ≤ i.max_cases)

/-! ## Theorems -/

/-- Membership in the truthy-doc-type set agrees with "some document carries
this doc type", for any non-empty type string. -/
theorem presentTypes_mem (docs : List DocumentRecord) (r : String) (hr : r ≠ "") :
    r ∈ presentTypes docs ↔ ∃ d ∈ docs, d.doc_type = some r := by
  unfold presentTypes
  rw [List.mem_filterMap]
  constructor
  · rintro ⟨d, hd, hf⟩
    refine ⟨d, hd, ?_⟩
    cases hdt : d.doc_type with
    | none => simp only [hdt] at hf; exact hf
    | some t =>
        simp only [hdt] at hf
        by_cases ht : t = ""
        · rw [if_pos ht] at hf; exact absurd hf (by simp)
        · rw [if_neg ht] at hf
          simp only [Option.some.injEq] at hf
          rw [hf]
  · rintro ⟨d, hd, hf⟩
    refine ⟨d, hd, ?_⟩
    simp only [hf, if_neg hr]

/-- Every required document type is a non-empty string. -/
theorem requiredFor_ne_empty (ct : Option String) : ∀ r ∈ requiredFor ct, r ≠ "" := by
  unfold requiredFor
  split
  · intro r hr; fin_cases hr <;> decide
  · split
    · intro r hr; fin_cases hr <;> decide
    · intro r hr; fin_cases hr <;> decide

/-- Claim C7: the rule-based validation strategy computes the required
document-type set from `claim_type` (one fixed set for motor, one for health,
a default set for every other claim type), sets `required_missing` to exactly
those required types that appear in no document's `doc_type`, and sets
`docs_ok` true if and only if `required_missing` is empty. -/
theorem C7_rule_based_validation (s : ClaimState) :
    (fallback_validation s).validation.required_missing =
      (requiredFor s.claim_type).filter
        (fun r => decide (∀ d ∈ s.documents, d.doc_type ≠ some r)) ∧
    ((fallback_validation s).validation.docs_ok = true ↔
      (fallback_validation s).validation.required_missing = []) ∧
    (claimKey s.claim_type = "motor" → requiredFor s.claim_type =
      [("fir"), ("itemized_invoice"), ("payment_receipt"), ("id_proof")]) ∧
    (claimKey s.claim_type = "health" → requiredFor s.claim_type =
      [("discharge_summary"), ("itemized_invoice"), ("payment_receipt"), ("id_proof")]) ∧
    (claimKey s.claim_type ≠ "motor" → claimKey s.claim_type ≠ "health" →
      requiredFor s.claim_type = [("itemized_invoice"), ("payment_receipt"), ("id_proof")]) := by
  refine ⟨?_, ?_, ?_, ?_, ?_⟩
  · show ((requiredFor s.claim_type).filter
        fun r => !(decide (r ∈ presentTypes s.documents))) = _
    apply List.filter_congr
    intro r hr
    rw [Bool.eq_iff_iff]
    simp only [Bool.not_eq_true', decide_eq_false_iff_not, decide_eq_true_eq]
    rw [presentTypes_mem s.documents r (requiredFor_ne_empty s.claim_type r hr)]
    push_neg
    rfl
  · show ((requiredFor s.claim_type).filter
        fun r => !(decide (r ∈ presentTypes s.documents))).isEmpty = true ↔
      ((requiredFor s.claim_type).filter
        fun r => !(decide (r ∈ presentTypes s.documents))) = []
    exact List.isEmpty_iff
  · intro h; simp [requiredFor, h]
  · intro h
    have hm : claimKey s.claim_type ≠ "motor" := by rw [h]; decide
    simp [requiredFor, h, hm]
  · intro h1 h2; simp [requiredFor, h1, h2]

/-- Witness for C7 at a concrete aggregate: health claim with only an invoice
present, so the discharge summary, receipt and id proof are reported missing
and `docs_ok` is false. -/
theorem C7_rule_based_validation_witness :
    (fallback_validation { ClaimState.init with
        claim_type := some ("Health"),
        documents := [{ filename := ("inv.pdf"), content_type := ("application/pdf"),
                        size_bytes := 10, doc_type := some ("itemized_invoice"),
                        extracted_text := none }] }).validation.required_missing =
      [("discharge_summary"), ("payment_receipt"), ("id_proof")] := by
  have h := C7_rule_based_validation { ClaimState.init with
        claim_type := some ("Health"),
        documents := [{ filename := ("inv.pdf"), content_type := ("application/pdf"),
                        size_bytes := 10, doc_type := some ("itemized_invoice"),
                        extracted_text := none }] }
  rw [h.1]
  decide

/-- Claim C9: on an aggregate whose `transaction_id` and `registered_at` are
both set and non-empty, re-running the Registration stage leaves
`transaction_id` and `registered_at` unchanged, whatever fresh id, timestamp
and persistence outcome the second run sees. -/
theorem C9_registration_id_idempotent (u n : String) (dbOk : Bool) (s : ClaimState)
    (t r : String) (ht : s.transaction_id = some t) (ht' : t ≠ "")
    (hr : s.registered_at = some r) (hr' : r ≠ "") :
    (registration_agent u n dbOk s).transaction_id = some t ∧
    (registration_agent u n dbOk s).registered_at = some r := by
  have hd1 : decide (t ≠ "") = true := by simp [ht']
  have hd2 : decide (r ≠ "") = true := by simp [hr']
  unfold registration_agent
  simp only [optStrTruthy, ht, hr, hd1, hd2, if_true]
  constructor <;> (split <;> split <;> simp [ht, hr])

/-- Witness for C9 at a concrete registered aggregate. -/
theorem C9_registration_id_idempotent_witness :
    (registration_agent ("uuid-2") ("2024-01-02T00:00:00") true
        { ClaimState.init with transaction_id := some ("tx-1"),
                               registered_at := some ("2024-01-01T00:00:00") }).transaction_id =
      some ("tx-1") ∧
    (registration_agent ("uuid-2") ("2024-01-02T00:00:00") true
        { ClaimState.init with transaction_id := some ("tx-1"),
                               registered_at := some ("2024-01-01T00:00:00") }).registered_at =
      some ("2024-01-01T00:00:00") :=
  C9_registration_id_idempotent ("uuid-2") ("2024-01-02T00:00:00") true
    { ClaimState.init with transaction_id := some ("tx-1"),
                           registered_at := some ("2024-01-01T00:00:00") }
    ("tx-1") ("2024-01-01T00:00:00") rfl (by decide) rfl (by decide)

/-- The concrete aggregate of claim C10: a free-text narrative plus one
document carrying OCR text. -/
def c10Start : ClaimState :=
  { ClaimState.init with
    extracted_text := some ("A"),
    documents := [{ filename := ("scan.pdf"), content_type := ("application/pdf"),
                    size_bytes := 120, doc_type := some ("id_proof"),
                    extracted_text := some ("B") }] }

/-- Claim C10: Registration is not idempotent on the full aggregate — on an
already-processed aggregate with a non-empty `extracted_text` and a document
with non-empty OCR text, a second run concatenates the document text onto the
aggregated text again (duplicating it) and grows the audit log, while
`transaction_id` and `registered_at` stay fixed. -/
theorem C10_registration_reaggregates :
    (registration_agent ("u1") ("t1") true c10Start).extracted_text =
      some ("A\n\nB") ∧
    (registration_agent ("u2") ("t2") true
        (registration_agent ("u1") ("t1") true c10Start)).extracted_text =
      some ("A\n\nB\n\nB") ∧
    (registration_agent ("u2") ("t2") true
        (registration_agent ("u1") ("t1") true c10Start)).extracted_text ≠
      (registration_agent ("u1") ("t1") true c10Start).extracted_text ∧
    (registration_agent ("u2") ("t2") true
        (registration_agent ("u1") ("t1") true c10Start)).transaction_id =
      (registration_agent ("u1") ("t1") true c10Start).transaction_id ∧
    (registration_agent ("u2") ("t2") true
        (registration_agent ("u1") ("t1") true c10Start)).registered_at =
      (registration_agent ("u1") ("t1") true c10Start).registered_at ∧
    (registration_agent ("u1") ("t1") true c10Start).logs.length <
      (registration_agent ("u2") ("t2") true
        (registration_agent ("u1") ("t1") true c10Start)).logs.length := by
  decide

/-- Claim C6: after Fraud Scoring (so `fraud_score` is set), the router
chooses Investigator Assignment iff `fraud_score ≥ 0.70` or `amount >
300000` (a missing amount is treated as 0), Manager Decision otherwise, and
repeated evaluations agree. -/
theorem C6_route_after_fraud (s : ClaimState) (fs : PyFloat)
    (h : s.fraud_score = some fs) :
    (route_after_fraud s = some Route.investigator ↔
      (fs.ge FRAUD_ESCALATION_THRESHOLD = true ∨
        PyFloat.gt (match s.amount with | none => PyFloat.finite 0 | some a => a)
          HIGH_AMOUNT_THRESHOLD = true)) ∧
    (route_after_fraud s = some Route.manager ↔
      ¬(fs.ge FRAUD_ESCALATION_THRESHOLD = true ∨
        PyFloat.gt (match s.amount with | none => PyFloat.finite 0 | some a => a)
          HIGH_AMOUNT_THRESHOLD = true)) ∧
    route_after_fraud s = route_after_fraud s := by
  have hamt : ∀ a : PyFloat,
      PyFloat.gt (if a.truthy then a else PyFloat.finite 0) HIGH_AMOUNT_THRESHOLD =
        PyFloat.gt a HIGH_AMOUNT_THRESHOLD := by
    intro a
    cases a with
    | finite q =>
        by_cases hq : q = 0
        · subst hq; simp [PyFloat.truthy]
        · simp [PyFloat.truthy, hq]
    | nan => rfl
    | inf => rfl
    | ninf => rfl
  unfold route_after_fraud
  rw [h]
  refine ⟨?_, ?_, rfl⟩ <;>
  · cases hs : s.amount with
    | none =>
        simp only []
        split <;> rename_i hcond <;> simp_all [Bool.or_eq_true]
    | some a =>
        simp only [hamt a]
        split <;> rename_i hcond <;> simp_all [Bool.or_eq_true, hamt a]

/-- The aggregate used to witness C6: fraud-scored at 0.85, no amount. -/
def c6State : ClaimState :=
  { ClaimState.init with fraud_checked := true,
                         fraud_score := some (PyFloat.finite (mkRat 85 100)) }

/-- Witness for C6: a claim fraud-scored at 0.85 routes to Investigator
Assignment. -/
theorem C6_route_after_fraud_witness :
    c6State.fraud_score = some (PyFloat.finite (mkRat 85 100)) ∧
    route_after_fraud c6State = some Route.investigator :=
  ⟨rfl, ((C6_route_after_fraud c6State (PyFloat.finite (mkRat 85 100)) rfl).1).mpr
    (Or.inl (by decide))⟩

/-- The aggregate the v3 pipeline hands to the Manager Decision node for a
clean, low-risk claim: registered, validated with documents OK, fraud-scored
at 0.2 — and `claim_decision_made` still false, since no v3 node ever sets
it. -/
def c1PipelineState : ClaimState :=
  { ClaimState.init with
    transaction_id := some ("tx-c1"), claim_registered := true,
    claim_validated := true,
    validation := { required_missing := [], warnings := [], errors := [],
                    docs_ok := true },
    fraud_checked := true, fraud_score := some (PyFloat.finite (mkRat 2 10)),
    fraud_decision := some ("SAFE"), amount := some (PyFloat.finite (mkRat 1000 1)) }

/-- Claim C1 (code bug): on the aggregate the v3 pipeline actually produces
at the Manager Decision node, `ManagerAgent.run` routes to the nonexistent
`decision_agent` node instead of finalizing, leaving `final_decision` unset —
outside `{APPROVED, REJECTED, PENDING_DOCUMENTS, ESCALATED_TO_SIU}` — even
though `finalize_claim` itself implements exactly the claimed first-match
table (last conjunct, at this aggregate: docs OK, score < 0.7, not approved
yields REJECTED). -/
theorem C1_manager_run_never_finalizes :
    decide_next_step c1PipelineState = ("decision_agent") ∧
    (manager_run c1PipelineState).2.next_step = ("decision_agent") ∧
    (manager_run c1PipelineState).1.final_decision = none ∧
    (manager_run c1PipelineState).2.final_decision = none ∧
    (∀ d ∈ [("APPROVED"), ("REJECTED"), ("PENDING_DOCUMENTS"), ("ESCALATED_TO_SIU")],
      (manager_run c1PipelineState).1.final_decision ≠ some d) ∧
    (finalize_claim c1PipelineState).1.final_decision = some ("REJECTED") := by
  decide

/-- The aggregate of claim C2: fraud checked, score 0.3 (below 0.7), amount
500 000 (above the 300 000 threshold), a motor claim. -/
def c2State : ClaimState :=
  { ClaimState.init with
    transaction_id := some ("tx-c2"), fraud_checked := true,
    fraud_score := some (PyFloat.finite (mkRat 3 10)),
    amount := some (PyFloat.finite (mkRat 500000 1)),
    claim_type := some ("motor") }

/-- The pool of claim C2: one ACTIVE motor investigator with spare
capacity. -/
def c2Pool : List Investigator :=
  [{ investigator_id := ("INV003"), name := ("Arjun Mehta"),
     specialization := some ("motor"), active_cases := 0, max_cases := 3,
     status := ("ACTIVE") }]

/-- Claim C2 (code bug): the router sends this high-amount aggregate to the
Investigator Assignment stage and an eligible investigator is available, yet
the stage logs "No escalation required", assigns nobody, leaves the pool
untouched and writes no assignment record — because `investigator_agent`
tests only `fraud_score`, never the amount its own docstring promises. -/
theorem C2_high_amount_unassigned :
    route_after_fraud c2State = some Route.investigator ∧
    get_available_investigator c2State.claim_type c2Pool = some ("INV003") ∧
    (investigator_agent c2Pool c2State).1.assignment_done = false ∧
    (investigator_agent c2Pool c2State).2.1 = c2Pool ∧
    (investigator_agent c2Pool c2State).2.2 = none ∧
    (investigator_agent c2Pool c2State).1.logs =
      [("[investigator] No escalation required")] := by
  decide

/-- The pool of claim C3: one ACTIVE motor investigator one case below
capacity. -/
def c3Pool : List Investigator :=
  [{ investigator_id := ("INV009"), name := ("Anita Singh"),
     specialization := some ("motor"), active_cases := 4, max_cases := 5,
     status := ("ACTIVE") }]

/-- Two concurrent assignment requests for motor claims. -/
def c3Reqs : List ReqState :=
  [{ claim_type := some ("motor") }, { claim_type := some ("motor") }]

/-- Claim C3 (code bug): starting from a pool satisfying the capacity
invariant, the interleaving select₁ select₂ increment₁ increment₂ of two
assignment requests drives the lone investigator to 6 active cases against a
maximum of 5 — the capacity invariant fails — while the sequential schedule
of the same two requests preserves it. -/
theorem C3_concurrent_capacity_overshoot :
    capacityOk c3Pool = true ∧
    (runSched c3Pool c3Reqs [0, 1, 0, 1]).1 =
      [{ investigator_id := ("INV009"), name := ("Anita Singh"),
         specialization := some ("motor"), active_cases := 6, max_cases := 5,
         status := ("ACTIVE") }] ∧
    capacityOk (runSched c3Pool c3Reqs [0, 1, 0, 1]).1 = false ∧
    capacityOk (runSched c3Pool c3Reqs [0, 0, 1, 1]).1 = true := by
  decide

/-! ## JSON values

Model of the values Python's `json` module exchanges with this codebase.
Numbers are kept in exact decimal form `m · 10^e` (ints have `e = 0`), an
idealisation of IEEE doubles under which every decimal literal is exact;
Python's `json.loads` also accepts the non-standard literals `NaN`,
`Infinity` and `-Infinity`, which get their own constructors. Objects keep
their fields in source order (lookup takes the last binding, as a Python
dict built by the parser would). Arrays and field lists are their own
mutual inductives so that every function on them is structurally
recursive. -/
mutual

inductive J where
  | jnull
  | jbool (b : Bool)
  | jnum (m e : Int)
  | jnan
  | jinf
  | jninf
  | jstr (s : String)
  | jarr (elems : JList)
  | jobj (fields : JFields)

inductive JList where
  | nil
  | cons (head : J) (tail : JList)

inductive JFields where
  | nil
  | cons (key : String) (val : J) (tail : JFields)

end

mutual

/-- Structural equality on JSON values. -/
def J.beq : J → J → Bool
  | .jnull, .jnull => true
  | .jbool a, .jbool b => a == b
  | .jnum m e, .jnum m' e' => m == m' && e == e'
  | .jnan, .jnan => true
  | .jinf, .jinf => true
  | .jninf, .jninf => true
  | .jstr a, .jstr b => a == b
  | .jarr xs, .jarr ys => JList.beq xs ys
  | .jobj xs, .jobj ys => JFields.beq xs ys
  | _, _ => false

/-- Structural equality on JSON value lists. -/
def JList.beq : JList → JList → Bool
  | .nil, .nil => true
  | .cons x xs, .cons y ys => J.beq x y && JList.beq xs ys
  | _, _ => false

/-- Structural equality on JSON field lists. -/
def JFields.beq : JFields → JFields → Bool
  | .nil, .nil => true
  | .cons k v xs, .cons k' v' ys => k == k' && J.beq v v' && JFields.beq xs ys
  | _, _ => false

end

mutual

/-- Structural equality decides propositional equality on JSON values. -/
theorem J.beq_iff_eq : ∀ a b : J, J.beq a b = true ↔ a = b
  | .jnull, .jnull => by simp [J.beq]
  | .jbool _, .jbool _ => by simp [J.beq]
  | .jnum _ _, .jnum _ _ => by simp [J.beq]
  | .jnan, .jnan => by simp [J.beq]
  | .jinf, .jinf => by simp [J.beq]
  | .jninf, .jninf => by simp [J.beq]
  | .jstr _, .jstr _ => by simp [J.beq]
  | .jarr xs, .jarr ys => by simp [J.beq, JList.beqL_iff_eq xs ys]
  | .jobj xs, .jobj ys => by simp [J.beq, JFields.beqF_iff_eq xs ys]
  | .jnull, .jbool _
  | .jnull, .jnum _ _
  | .jnull, .jnan
  | .jnull, .jinf
  | .jnull, .jninf
  | .jnull, .jstr _
  | .jnull, .jarr _
  | .jnull, .jobj _
  | .jbool _, .jnull
  | .jbool _, .jnum _ _
  | .jbool _, .jnan
  | .jbool _, .jinf
  | .jbool _, .jninf
  | .jbool _, .jstr _
  | .jbool _, .jarr _
  | .jbool _, .jobj _
  | .jnum _ _, .jnull
  | .jnum _ _, .jbool _
  | .jnum _ _, .jnan
  | .jnum _ _, .jinf
  | .jnum _ _, .jninf
  | .jnum _ _, .jstr _
  | .jnum _ _, .jarr _
  | .jnum _ _, .jobj _
  | .jnan, .jnull
  | .jnan, .jbool _
  | .jnan, .jnum _ _
  | .jnan, .jinf
  | .jnan, .jninf
  | .jnan, .jstr _
  | .jnan, .jarr _
  | .jnan, .jobj _
  | .jinf, .jnull
  | .jinf, .jbool _
  | .jinf, .jnum _ _
  | .jinf, .jnan
  | .jinf, .jninf
  | .jinf, .jstr _
  | .jinf, .jarr _
  | .jinf, .jobj _
  | .jninf, .jnull
  | .jninf, .jbool _
  | .jninf, .jnum _ _
  | .jninf, .jnan
  | .jninf, .jinf
  | .jninf, .jstr _
  | .jninf, .jarr _
  | .jninf, .jobj _
  | .jstr _, .jnull
  | .jstr _, .jbool _
  | .jstr _, .jnum _ _
  | .jstr _, .jnan
  | .jstr _, .jinf
  | .jstr _, .jninf
  | .jstr _, .jarr _
  | .jstr _, .jobj _
  | .jarr _, .jnull
  | .jarr _, .jbool _
  | .jarr _, .jnum _ _
  | .jarr _, .jnan
  | .jarr _, .jinf
  | .jarr _, .jninf
  | .jarr _, .jstr _
  | .jarr _, .jobj _
  | .jobj _, .jnull
  | .jobj _, .jbool _
  | .jobj _, .jnum _ _
  | .jobj _, .jnan
  | .jobj _, .jinf
  | .jobj _, .jninf
  | .jobj _, .jstr _
  | .jobj _, .jarr _ => by simp [J.beq]

/-- Structural equality decides propositional equality on value lists. -/
theorem JList.beqL_iff_eq : ∀ xs ys : JList, JList.beq xs ys = true ↔ xs = ys
  | .nil, .nil => by simp [JList.beq]
  | .nil, .cons _ _ => by simp [JList.beq]
  | .cons _ _, .nil => by simp [JList.beq]
  | .cons x xs, .cons y ys => by
      simp [JList.beq, J.beq_iff_eq x y, JList.beqL_iff_eq xs ys]

/-- Structural equality decides propositional equality on field lists. -/
theorem JFields.beqF_iff_eq :
    ∀ xs ys : JFields, JFields.beq xs ys = true ↔ xs = ys
  | .nil, .nil => by simp [JFields.beq]
  | .nil, .cons _ _ _ => by simp [JFields.beq]
  | .cons _ _ _, .nil => by simp [JFields.beq]
  | .cons k v xs, .cons k' v' ys => by
      simp [JFields.beq, J.beq_iff_eq v v', JFields.beqF_iff_eq xs ys, and_assoc]

end

instance : DecidableEq J := fun a b => decidable_of_iff _ (J.beq_iff_eq a b)

instance : DecidableEq JList := fun a b => decidable_of_iff _ (JList.beqL_iff_eq a b)

instance : DecidableEq JFields := fun a b => decidable_of_iff _ (JFields.beqF_iff_eq a b)

/-- The opening-brace character. -/
def lbrace : Char := Char.ofNat 123

/-- The closing-brace character. -/
def rbrace : Char := Char.ofNat 125

/-- The backtick character. -/
def btick : Char := Char.ofNat 96

/-- The backspace character. -/
def bsChar : Char := Char.ofNat 8

/-- The form-feed character. -/
def ffChar : Char := Char.ofNat 12

/-! ## JSON printer (model of Python `json.dumps` with default separators) -/

/-- The decimal digit character for `d < 10`. -/
def digitChar (d : Nat) : Char := Char.ofNat (48 + d)

/-- The decimal digits of `n`, most significant first, in front of `acc`,
with enough fuel to take one digit per step. -/
def digitsGo : Nat → Nat → List Char → List Char
  | 0, _, acc => acc
  | fuel + 1, n, acc =>
      if n < 10 then digitChar n :: acc
      else digitsGo fuel (n / 10) (digitChar (n % 10) :: acc)

/-- The decimal digits of `n`, most significant first, in front of `acc`. -/
def digitsOnto (n : Nat) (acc : List Char) : List Char := digitsGo (n + 1) n acc

/-- The decimal rendering of an integer. -/
def intChars (m : Int) : List Char :=
  if m < 0 then '-' :: digitsOnto (-m).toNat [] else digitsOnto m.toNat []

/-- The lower-case hex digit character for `d < 16`. -/
def hexChar (d : Nat) : Char :=
  if d < 10 then Char.ofNat (48 + d) else Char.ofNat (97 + (d - 10))

/-- JSON escaping of one string character: the two mandatory escapes, the
five shorthand control escapes, `\u00XX` for the remaining control
characters, and every other character verbatim (Python `json.dumps` with
`ensure_ascii=False`; the `ensure_ascii=True` default additionally escapes
non-ASCII, which changes no behaviour this development relies on). -/
def escCharOut (c : Char) : List Char :=
  if c = '"' then ['\\', '"']
  else if c = '\\' then ['\\', '\\']
  else if c = '\n' then ['\\', 'n']
  else if c = '\t' then ['\\', 't']
  else if c = '\r' then ['\\', 'r']
  else if c = bsChar then ['\\', 'b']
  else if c = ffChar then ['\\', 'f']
  else if c.toNat < 32 then
    ['\\', 'u', '0', '0', hexChar (c.toNat / 16), hexChar (c.toNat % 16)]
  else [c]

/-- The escaped body of a JSON string literal. -/
def escBody (cs : List Char) : List Char := cs.flatMap escCharOut

/-- A JSON string literal. -/
def strLit (s : String) : List Char := '"' :: escBody s.data ++ ['"']

/-- The rendering of the decimal `m · 10^e`: plain integer when `e = 0`,
exponent notation otherwise (parse-equivalent to Python's float `repr`). -/
def numChars (m e : Int) : List Char :=
  if e = 0 then intChars m else intChars m ++ 'e' :: intChars e

mutual

/-- `json.dumps` with the default `", "` / `": "` separators, to chars. -/
def dumpsL : J → List Char
  | .jnull => ['n', 'u', 'l', 'l']
  | .jbool true => ['t', 'r', 'u', 'e']
  | .jbool false => ['f', 'a', 'l', 's', 'e']
  | .jnum m e => numChars m e
  | .jnan => ['N', 'a', 'N']
  | .jinf => ['I', 'n', 'f', 'i', 'n', 'i', 't', 'y']
  | .jninf => ['-', 'I', 'n', 'f', 'i', 'n', 'i', 't', 'y']
  | .jstr s => strLit s
  | .jarr xs => '[' :: dumpsArr xs ++ [']']
  | .jobj kvs => lbrace :: dumpsObj kvs ++ [rbrace]

/-- Array elements joined by `", "`. -/
def dumpsArr : JList → List Char
  | .nil => []
  | .cons x xs => dumpsL x ++ dumpsArrTail xs

/-- The `", "`-prefixed later array elements. -/
def dumpsArrTail : JList → List Char
  | .nil => []
  | .cons x xs => ',' :: ' ' :: (dumpsL x ++ dumpsArrTail xs)

/-- Object fields `key: value` joined by `", "`. -/
def dumpsObj : JFields → List Char
  | .nil => []
  | .cons k v kvs => strLit k ++ ':' :: ' ' :: (dumpsL v ++ dumpsObjTail kvs)

/-- The `", "`-prefixed later object fields. -/
def dumpsObjTail : JFields → List Char
  | .nil => []
  | .cons k v kvs => ',' :: ' ' :: (strLit k ++ ':' :: ' ' :: (dumpsL v ++ dumpsObjTail kvs))

end

/-- `json.dumps` as a string. -/
def dumps (v : J) : String := ⟨dumpsL v⟩

/-! ## JSON parser (model of Python `json.loads`, strict mode)

A fuel-indexed recursive-descent parser over char lists; `loads` supplies
fuel ample for its input, and fuel monotonicity makes results
fuel-independent. Besides standard JSON it accepts `NaN`, `Infinity` and
`-Infinity`, as Python's default `parse_constant` does; a raw control
character inside a string is rejected (`strict=True`); `\uXXXX` escapes
decode through `Char.ofNat` (surrogate halves, which Lean chars cannot
carry, come out as the null character — no theorem below depends on them). -/

/-- The JSON whitespace characters. -/
def isJsonWs (c : Char) : Bool := c = ' ' || c = '\t' || c = '\n' || c = '\r'

/-- Drop leading JSON whitespace. -/
def skipWs (cs : List Char) : List Char := cs.dropWhile isJsonWs

/-- Decimal digit test. -/
def isDigit (c : Char) : Bool := 48 ≤ c.toNat && c.toNat ≤ 57

/-- The value of a hex digit. -/
def hexVal (c : Char) : Option Nat :=
  if 48 ≤ c.toNat ∧ c.toNat ≤ 57 then some (c.toNat - 48)
  else if 97 ≤ c.toNat ∧ c.toNat ≤ 102 then some (c.toNat - 87)
  else if 65 ≤ c.toNat ∧ c.toNat ≤ 70 then some (c.toNat - 55)
  else none

/-- The character denoted by a shorthand escape. -/
def escCharIn (c : Char) : Option Char :=
  if c = '"' then some '"'
  else if c = '\\' then some '\\'
  else if c = '/' then some '/'
  else if c = 'b' then some bsChar
  else if c = 'f' then some ffChar
  else if c = 'n' then some '\n'
  else if c = 'r' then some '\r'
  else if c = 't' then some '\t'
  else none

/-- The body of a JSON string after the opening quote: the decoded content
and the remainder after the closing quote. -/
def strBody : List Char → Option (List Char × List Char)
  | [] => none
  | '"' :: cs => some ([], cs)
  | '\\' :: 'u' :: a :: b :: c2 :: d :: cs =>
      match hexVal a, hexVal b, hexVal c2, hexVal d with
      | some ha, some hb, some hc, some hd =>
          (strBody cs).map fun p =>
            (Char.ofNat (((ha * 16 + hb) * 16 + hc) * 16 + hd) :: p.1, p.2)
      | _, _, _, _ => none
  | '\\' :: 'u' :: _ => none
  | '\\' :: e :: cs =>
      match escCharIn e with
      | some ch => (strBody cs).map fun p => (ch :: p.1, p.2)
      | none => none
  | ['\\'] => none
  | c :: cs =>
      if c.toNat < 32 then none
      else (strBody cs).map fun p => (c :: p.1, p.2)

/-- The longest leading run of decimal digits, as digit values. -/
def digitRun : List Char → List Nat × List Char
  | [] => ([], [])
  | c :: cs =>
      if isDigit c then
        let p := digitRun cs
        ((c.toNat - 48) :: p.1, p.2)
      else ([], c :: cs)

/-- The number a digit list denotes. -/
def natOfDigits (ds : List Nat) : Nat := ds.foldl (fun a d => a * 10 + d) 0

/-- The JSON integer part: `0`, or a nonzero digit followed by digits. -/
def parseIntPart : List Char → Option (List Nat × List Char)
  | [] => none
  | c :: cs =>
      if c = '0' then some ([0], cs)
      else if isDigit c then
        let p := digitRun cs
        some ((c.toNat - 48) :: p.1, p.2)
      else none

/-- The optional fraction group `.digits`; not taken when absent. -/
def parseFracPart : List Char → List Nat × List Char
  | [] => ([], [])
  | c :: cs =>
      if c = '.' then
        match digitRun cs with
        | ([], _) => ([], c :: cs)
        | (ds, rest) => (ds, rest)
      else ([], c :: cs)

/-- The optional exponent group `[eE][+-]?digits`; not taken when
incomplete. -/
def parseExpPart : List Char → Int × List Char
  | [] => (0, [])
  | c :: cs =>
      if c = 'e' ∨ c = 'E' then
        match cs with
        | [] => (0, [c])
        | s :: cs' =>
            if s = '+' then
              match digitRun cs' with
              | ([], _) => (0, c :: s :: cs')
              | (ds, r) => ((natOfDigits ds : Int), r)
            else if s = '-' then
              match digitRun cs' with
              | ([], _) => (0, c :: s :: cs')
              | (ds, r) => (-(natOfDigits ds : Int), r)
            else
              match digitRun (s :: cs') with
              | ([], _) => (0, c :: s :: cs')
              | (ds, r) => ((natOfDigits ds : Int), r)
      else (0, c :: cs)

/-- A JSON number (after an already-consumed `-` sign when `neg`), in exact
decimal form: mantissa = all parsed digits, exponent = written exponent
minus the fraction length. -/
def parseNum (neg : Bool) (cs : List Char) : Option (J × List Char) :=
  match parseIntPart cs with
  | none => none
  | some (ids, r1) =>
      let fp := parseFracPart r1
      let ep := parseExpPart fp.2
      let mNat := natOfDigits (ids ++ fp.1)
      let m : Int := if neg then -(mNat : Int) else (mNat : Int)
      some (.jnum m (ep.1 - (fp.1.length : Int)), ep.2)

mutual

/-- One JSON value at the head of the input (no leading whitespace). -/
def parseVal : Nat → List Char → Option (J × List Char)
  | 0, _ => none
  | f + 1, cs =>
    match cs with
    | [] => none
    | c :: rest =>
      if c = lbrace then
        match skipWs rest with
        | c2 :: r2 =>
            if c2 = rbrace then some (.jobj .nil, r2)
            else (parseFields f (c2 :: r2)).map fun p => (.jobj p.1, p.2)
        | [] => none
      else if c = '[' then
        match skipWs rest with
        | c2 :: r2 =>
            if c2 = ']' then some (.jarr .nil, r2)
            else (parseElems f (c2 :: r2)).map fun p => (.jarr p.1, p.2)
        | [] => none
      else if c = '"' then (strBody rest).map fun p => (.jstr ⟨p.1⟩, p.2)
      else if c = 't' then
        match rest with
        | 'r' :: 'u' :: 'e' :: r => some (.jbool true, r)
        | _ => none
      else if c = 'f' then
        match rest with
        | 'a' :: 'l' :: 's' :: 'e' :: r => some (.jbool false, r)
        | _ => none
      else if c = 'n' then
        match rest with
        | 'u' :: 'l' :: 'l' :: r => some (.jnull, r)
        | _ => none
      else if c = 'N' then
        match rest with
        | 'a' :: 'N' :: r => some (.jnan, r)
        | _ => none
      else if c = 'I' then
        match rest with
        | 'n' :: 'f' :: 'i' :: 'n' :: 'i' :: 't' :: 'y' :: r => some (.jinf, r)
        | _ => none
      else if c = '-' then
        match rest with
        | 'I' :: 'n' :: 'f' :: 'i' :: 'n' :: 'i' :: 't' :: 'y' :: r => some (.jninf, r)
        | _ => parseNum true rest
      else if isDigit c then parseNum false (c :: rest)
      else none

/-- Array elements from the first element on, through the closing `]`. -/
def parseElems : Nat → List Char → Option (JList × List Char)
  | 0, _ => none
  | f + 1, cs =>
    match parseVal f cs with
    | none => none
    | some (v, r1) =>
      match skipWs r1 with
      | c :: r2 =>
          if c = ',' then (parseElems f (skipWs r2)).map fun p => (.cons v p.1, p.2)
          else if c = ']' then some (.cons v .nil, r2)
          else none
      | [] => none

/-- Object fields from the first key on, through the closing brace. -/
def parseFields : Nat → List Char → Option (JFields × List Char)
  | 0, _ => none
  | f + 1, cs =>
    match cs with
    | [] => none
    | c :: rest =>
      if c = '"' then
        match strBody rest with
        | none => none
        | some (kchars, r1) =>
          match skipWs r1 with
          | c2 :: r2 =>
            if c2 = ':' then
              match parseVal f (skipWs r2) with
              | none => none
              | some (v, r3) =>
                match skipWs r3 with
                | c3 :: r4 =>
                    if c3 = ',' then
                      (parseFields f (skipWs r4)).map fun p =>
                        (.cons (⟨kchars⟩ : String) v p.1, p.2)
                    else if c3 = rbrace then
                      some (.cons (⟨kchars⟩ : String) v .nil, r4)
                    else none
                | [] => none
            else none
          | [] => none
      else none

end

/-- `json.loads`: parse one value amid surrounding whitespace, rejecting
trailing garbage; `none` models a raised `JSONDecodeError`. -/
def loads (s : String) : Option J :=
  let cs := skipWs s.data
  match parseVal (2 * cs.length + 2) cs with
  | some (v, rest) => if skipWs rest = [] then some v else none
  | none => none


/-! ## Fenced-block extraction (`FENCE_RE` of backend/utils/safe_json.py)

The pattern is `(?:``` < or three tildes >)\s*([a-zA-Z0-9_-]+)?\s*\n(.*?)`
followed by a closing triple marker, searched leftmost with DOTALL.
Backtracking collapses to two cases: the greedy `\s*` runs and the optional
tag commit to their maximal extents, and a `\s*\n` sub-pattern succeeds
exactly when the maximal whitespace run ahead contains a newline, consuming
through the last one (shorter tag runs stall on a tag character that can
satisfy neither `\s` nor `\n`). -/

/-- A triple-backtick or triple-tilde marker starts here. -/
def markerAt : List Char → Bool
  | a :: b :: c :: _ =>
      (a = btick && b = btick && c = btick) || (a = '~' && b = '~' && c = '~')
  | _ => false

/-- A fence language-tag character: `[a-zA-Z0-9_-]`. -/
def isTagChar (c : Char) : Bool :=
  (48 ≤ c.toNat && c.toNat ≤ 57) || (65 ≤ c.toNat && c.toNat ≤ 90) ||
    (97 ≤ c.toNat && c.toNat ≤ 122) || c = '_' || c = '-'

/-- The index of the last newline of a list, if any. -/
def lastIdxNl : List Char → Option Nat
  | [] => none
  | c :: cs =>
      match lastIdxNl cs with
      | some i => some (i + 1)
      | none => if c = '\n' then some 0 else none

/-- Match `\s*(tag)?\s*\n` after an opening marker, returning the input
after the matched prefix. -/
def openRest (cs : List Char) : Option (List Char) :=
  let run := cs.takeWhile isPyWs
  let afterWs := cs.drop run.length
  let tagRun := afterWs.takeWhile isTagChar
  let caseB : Option (List Char) :=
    match lastIdxNl run with
    | some j => some (cs.drop (j + 1))
    | none => none
  if tagRun.length = 0 then caseB
  else
    let afterTag := afterWs.drop tagRun.length
    let run2 := afterTag.takeWhile isPyWs
    match lastIdxNl run2 with
    | some j2 => some (afterTag.drop (j2 + 1))
    | none => caseB

/-- The lazy `(.*?)` up to the first closing marker: the content before the
earliest marker occurrence, or `none` when no marker follows. -/
def contentScan : List Char → Option (List Char)
  | [] => none
  | c :: rest =>
      if markerAt (c :: rest) then some []
      else (contentScan rest).map fun cnt => c :: cnt

/-- `FENCE_RE.search`: the second group of the leftmost match. -/
def fenceSearch : List Char → Option (List Char)
  | [] => none
  | c :: rest =>
      if markerAt (c :: rest) then
        match openRest ((c :: rest).drop 3) with
        | some afterOpen =>
            match contentScan afterOpen with
            | some content => some content
            | none => fenceSearch rest
        | none => fenceSearch rest
      else fenceSearch rest

/-- `_extract_from_fence`: stripped content of the first fenced block. -/
def extract_from_fence (s : String) : Option String :=
  (fenceSearch s.data).map fun cs => strip ⟨cs⟩

/-- Case-insensitive prefix match against a lowercase pattern, returning the
remainder. -/
def ciPrefix : List Char → List Char → Option (List Char)
  | [], cs => some cs
  | _ :: _, [] => none
  | p :: ps, c :: cs => if lowChar c = p then ciPrefix ps cs else none

/-- `re.sub(r"^\s*(json|javascript)\s*\n", "", fenced, IGNORECASE)`: strip a
leading language-tag line if the anchored pattern matches, else return the
string unchanged. -/
def stripLangLine (s : String) : String :=
  let cs := s.data
  let run := cs.takeWhile isPyWs
  let after := cs.drop run.length
  let tryKw : List Char → Option (List Char) := fun kw =>
    match ciPrefix kw after with
    | none => none
    | some rest =>
        let run2 := rest.takeWhile isPyWs
        match lastIdxNl run2 with
        | some j => some (rest.drop (j + 1))
        | none => none
  match tryKw ['j', 's', 'o', 'n'] with
  | some r => ⟨r⟩
  | none =>
      match tryKw ['j', 'a', 'v', 'a', 's', 'c', 'r', 'i', 'p', 't'] with
      | some r => ⟨r⟩
      | none => s

/-! ## Balanced-brace extraction (`_extract_first_balanced_json`) -/

/-- The scanning loop of `_extract_first_balanced_json`: index, recorded
start, depth, in-string and escape state; returns the inclusive index span
of the first top-level balanced brace group. -/
def fbGo : List Char → Nat → Option Nat → Nat → Bool → Bool → Option (Nat × Nat)
  | [], _, _, _, _, _ => none
  | ch :: rest, i, start, depth, inStr, esc =>
      if inStr then
        if esc then fbGo rest (i + 1) start depth true false
        else if ch = '\\' then fbGo rest (i + 1) start depth true true
        else if ch = '"' then fbGo rest (i + 1) start depth false false
        else fbGo rest (i + 1) start depth true false
      else if ch = '"' then fbGo rest (i + 1) start depth true false
      else if ch = lbrace then
        fbGo rest (i + 1) (if depth = 0 then some i else start) (depth + 1) false false
      else if ch = rbrace then
        if 0 < depth then
          if depth = 1 then
            match start with
            | some st => some (st, i)
            | none => fbGo rest (i + 1) start 0 false false
          else fbGo rest (i + 1) start (depth - 1) false false
        else fbGo rest (i + 1) start depth false false
      else fbGo rest (i + 1) start depth false false

/-- `_extract_first_balanced_json`. -/
def firstBalanced (cs : List Char) : Option (List Char) :=
  (fbGo cs 0 none 0 false false).map fun p => ((cs.drop p.1).take (p.2 + 1 - p.1))

/-! ## `safe_json_parse` (backend/utils/safe_json.py) -/

/-- `_try_json_loads`, with Python's conflation of "decoded `null`" and
"decode failed": both come back as `None`, so a decoded `null` is treated as
a failure by every caller. -/
def pyTryLoads (s : String) : Option J :=
  match loads s with
  | some .jnull => none
  | r => r

/-- Strategy 3 of `safe_json_parse`: balanced-brace extraction over the whole
stripped text, then the fallback. -/
def balancedStep (stripped : String) (fallback : J) : J :=
  match firstBalanced stripped.data with
  | some bs =>
      match pyTryLoads ⟨bs⟩ with
      | some j => j
      | none => fallback
  | none => fallback

/-- `safe_json_parse`: direct decode of the stripped text, then the fenced
block (directly, with a language-tag line stripped, and by balanced braces
inside it), then balanced braces over the whole text, then the fallback. -/
def safe_json_parse (result : String) (fallback : J) : J :=
  if result = "" then fallback
  else
    let stripped := strip result
    match pyTryLoads stripped with
    | some j => j
    | none =>
      match extract_from_fence stripped with
      | some f =>
          if f = "" then balancedStep stripped fallback
          else
            match pyTryLoads f with
            | some j => j
            | none =>
                match pyTryLoads (stripLangLine f) with
                | some j => j
                | none =>
                    match firstBalanced f.data with
                    | some bs =>
                        match pyTryLoads ⟨bs⟩ with
                        | some j => j
                        | none => balancedStep stripped fallback
                    | none => balancedStep stripped fallback
      | none => balancedStep stripped fallback

deriving instance DecidableEq for Except

/-! ## Fraud Scoring stage (`backend/agents/fraud_agent.py`) -/

/-- The exact rational denoted by the decimal `m · 10^e`. -/
def ratOfDec (m e : Int) : Rat :=
  if 0 ≤ e then mkRat (m * ((10 ^ e.toNat : Nat) : Int)) 1
  else mkRat m (10 ^ (-e).toNat)

/-- All leading digits collected, requiring full consumption. -/
def digitsAll (cs : List Char) : Option Nat :=
  let p := digitRun cs
  if p.1.isEmpty ∨ ¬p.2.isEmpty then none else some (natOfDigits p.1)

/-- The exponent tail `[+-]?digits` of a Python float literal. -/
def expVal : List Char → Option Int
  | [] => none
  | '+' :: r => (digitsAll r).map fun n => (n : Int)
  | '-' :: r => (digitsAll r).map fun n => -(n : Int)
  | r => (digitsAll r).map fun n => (n : Int)

/-- The unsigned decimal body of a Python float literal
(`digits [. digits] [eE exp]`, at least one digit, fully consumed), as
mantissa and exponent. -/
def floatDec (cs : List Char) : Option (Nat × Int) :=
  let p1 := digitRun cs
  let withDot : Option (List Nat × List Char) :=
    match p1.2 with
    | c :: r => if c = '.' then some (digitRun r) else none
    | [] => none
  let fds := match withDot with | some q => q.1 | none => []
  let r2 := match withDot with | some q => q.2 | none => p1.2
  if p1.1.isEmpty ∧ fds.isEmpty then none
  else
    match r2 with
    | [] => some (natOfDigits (p1.1 ++ fds), -(fds.length : Int))
    | c :: r3 =>
        if c = 'e' ∨ c = 'E' then
          (expVal r3).map fun ex => (natOfDigits (p1.1 ++ fds), ex - (fds.length : Int))
        else none

/-- Python `float(str)`: strip whitespace, optional sign, then `inf`,
`infinity` or `nan` case-insensitively, or a decimal literal (digit-group
underscores are not modelled; no theorem involves them). -/
def pyFloatOfString (s : String) : Option PyFloat :=
  let cs := stripL s.data
  let signed : Bool × List Char :=
    match cs with
    | '+' :: r => (false, r)
    | '-' :: r => (true, r)
    | r => (false, r)
  let neg := signed.1
  let lowb := signed.2.map lowChar
  if lowb = ['i', 'n', 'f'] ∨ lowb = ['i', 'n', 'f', 'i', 'n', 'i', 't', 'y'] then
    some (if neg then .ninf else .inf)
  else if lowb = ['n', 'a', 'n'] then some .nan
  else
    (floatDec signed.2).map fun p =>
      .finite (ratOfDec (if neg then -(p.1 : Int) else (p.1 : Int)) p.2)

/-- Python `float(x)` on a decoded JSON value: numbers and booleans convert,
strings parse (`ValueError` on failure), `None`, lists and dicts raise
`TypeError`; an error stands for either caught exception type. -/
def floatOfJ : J → Except Unit PyFloat
  | .jnum m e => .ok (.finite (ratOfDec m e))
  | .jnan => .ok .nan
  | .jinf => .ok .inf
  | .jninf => .ok .ninf
  | .jbool b => .ok (.finite (if b then 1 else 0))
  | .jstr s =>
      match pyFloatOfString s with
      | some f => .ok f
      | none => .error ()
  | .jnull => .error ()
  | .jarr _ => .error ()
  | .jobj _ => .error ()

/-- Python `dict.get` with default: the last binding of the key wins, as in
a dict built by insertion. -/
def JFields.getD : JFields → String → J → J
  | .nil, _, dflt => dflt
  | .cons k v t, key, dflt => JFields.getD t key (if k = key then v else dflt)

/-- Python `str()` of a decoded JSON value. Scalars render as Python prints
them; numbers keep this model's exponent-canonical decimal text, and
containers render as their JSON text where Python's `repr` would use single
quotes — no theorem below distinguishes either spelling, and neither can
ever equal `"SUSPECT"` after stripping and uppercasing. -/
def pyStr : J → String
  | .jstr s => s
  | .jbool true => ("True")
  | .jbool false => ("False")
  | .jnull => ("None")
  | .jnan => ("nan")
  | .jinf => ("inf")
  | .jninf => ("-inf")
  | .jnum m e => ⟨numChars m e⟩
  | v => ⟨dumpsL v⟩

/-- `_sanitize_result` of fraud_agent.py: on a dict, the score is
`float(...)` of the `fraud_score` entry (default `0.0`) clamped below by 0
then above by 1, with `0.0` on `TypeError`/`ValueError`; the decision is
`SUSPECT` exactly when the stripped, uppercased `str()` of the
`fraud_decision` entry (default `"SAFE"`) is `"SUSPECT"`. On any non-dict
the `.get` attribute lookup raises (uncaught `AttributeError`). -/
def sanitize_result : J → Except Unit (PyFloat × String)
  | .jobj kvs =>
      let score :=
        match floatOfJ (kvs.getD ("fraud_score") (J.jnum 0 0)) with
        | .error _ => PyFloat.finite 0
        | .ok f =>
            let f1 := if f.lt (.finite 0) then PyFloat.finite 0 else f
            if f1.gt (.finite 1) then PyFloat.finite 1 else f1
      let ds := upper (strip (pyStr (kvs.getD ("fraud_decision") (J.jstr ("SAFE")))))
      .ok (score, if ds = "SUSPECT" then ("SUSPECT") else ("SAFE"))
  | _ => .error ()

/-- The parsed fallback dict `{"fraud_score": 0.0, "fraud_decision":
"SAFE"}` passed to `safe_json_parse`. -/
def fraudFallbackJ : J :=
  J.jobj (.cons ("fraud_score") (J.jnum 0 0)
    (.cons ("fraud_decision") (J.jstr ("SAFE")) .nil))

/-- The literal raw completion text the agent substitutes when the
credential is missing or the completion call raises. -/
def fraudRawFallback : String :=
  ("\x7b\"fraud_score\": 0.0, \"fraud_decision\": \"SAFE\"\x7d")

/-- The parse-sanitize-update tail of `fraud_agent`, given the raw
completion text: an error is the stage raising with the state untouched. -/
def fraud_agent_core (raw : String) (s : ClaimState) : Except Unit ClaimState :=
  match sanitize_result (safe_json_parse raw fraudFallbackJ) with
  | .error e => .error e
  | .ok (score, dec) =>
      .ok { s with fraud_checked := true, fraud_score := some score,
                   fraud_decision := some dec }

/-- `fraud_agent`: the raw text is the completion output when the
`GOOGLE_API_KEY` credential is set and the call returns, and the literal
fallback JSON otherwise (`llmResult = none` models the call raising). -/
def fraud_agent (apiKeySet : Bool) (llmResult : Option String) (s : ClaimState) :
    Except Unit ClaimState :=
  let raw :=
    if !apiKeySet then fraudRawFallback
    else match llmResult with
         | none => fraudRawFallback
         | some r => r
  fraud_agent_core raw s

/-- The score field of a stage result lies in the unit interval. -/
def scoreInUnitB : Option PyFloat → Bool
  | some (.finite q) => decide (0 ≤ q ∧ q ≤ 1)
  | _ => false

/-- The raw `fraud_decision` entry of a parsed completion (default
`"SAFE"`), for stating what "the parsed decision string" refers to. -/
def decisionRawField : J → J
  | .jobj kvs => JFields.getD kvs ("fraud_decision") (J.jstr ("SAFE"))
  | _ => J.jstr ("SAFE")

/-- Claim C8: when the credential is absent or the completion call raises,
the Fraud Scoring stage completes without error with `fraud_score = 0.0`,
`fraud_decision = SAFE` and `fraud_checked = true`. -/
theorem C8_fraud_fallback (apiKeySet : Bool) (llmResult : Option String)
    (s : ClaimState) (h : apiKeySet = false ∨ llmResult = none) :
    fraud_agent apiKeySet llmResult s =
      Except.ok ({ s with fraud_checked := true,
                          fraud_score := some (PyFloat.finite 0),
                          fraud_decision := some ("SAFE") }) := by
  have hcore : ∀ s₀ : ClaimState, fraud_agent_core fraudRawFallback s₀ =
      Except.ok ({ s₀ with fraud_checked := true,
                           fraud_score := some (PyFloat.finite 0),
                           fraud_decision := some ("SAFE") }) := by
    intro s₀
    unfold fraud_agent_core
    have hs : sanitize_result (safe_json_parse fraudRawFallback fraudFallbackJ) =
        .ok (PyFloat.finite 0, ("SAFE")) := by decide
    rw [hs]
  rcases h with h | h
  · subst h
    exact hcore s
  · subst h
    cases apiKeySet <;> exact hcore s

/-- Witness for C8: the missing-credential path on a fresh aggregate. -/
theorem C8_fraud_fallback_witness :
    fraud_agent false (some ("\x7b\"fraud_score\": 0.9\x7d")) ClaimState.init =
      Except.ok ({ ClaimState.init with
                   fraud_checked := true,
                   fraud_score := some (PyFloat.finite 0),
                   fraud_decision := some ("SAFE") }) :=
  C8_fraud_fallback false (some ("\x7b\"fraud_score\": 0.9\x7d")) ClaimState.init
    (Or.inl rfl)

/-- The property claim C4 asserts of one completion output: the stage
completes, the resulting score lies in `[0,1]`, the decision is `SUSPECT`
exactly when the parsed decision string case-insensitively equals
`"suspect"`, and `fraud_checked` is set. -/
def C4At (raw : String) (s : ClaimState) : Bool :=
  match fraud_agent_core raw s with
  | .error _ => false
  | .ok s' =>
      scoreInUnitB s'.fraud_score &&
      ((s'.fraud_decision == some ("SUSPECT")) ==
        ciEq (pyStr (decisionRawField (safe_json_parse raw fraudFallbackJ)))
          ("suspect")) &&
      s'.fraud_checked

/-- Claim C4 is false as stated, at two concrete completion outputs: a JSON
`NaN` score survives both clamp comparisons, so the stored score is `nan`,
outside `[0,1]`, and the decision `" suspect"` is mapped to `SUSPECT` by the
strip-then-uppercase test although it does not case-insensitively equal
`"suspect"`; and the output `"5"` parses to a non-dict, so `.get` raises
`AttributeError` and the stage dies with `fraud_checked` never set. -/
theorem C4_counterexample :
    C4At ("\x7b\"fraud_score\": NaN, \"fraud_decision\": \" suspect\"\x7d")
      ClaimState.init = false ∧
    fraud_agent_core ("\x7b\"fraud_score\": NaN, \"fraud_decision\": \" suspect\"\x7d")
      ClaimState.init =
      Except.ok ({ ClaimState.init with
                   fraud_checked := true, fraud_score := some PyFloat.nan,
                   fraud_decision := some ("SUSPECT") }) ∧
    C4At ("5") ClaimState.init = false ∧
    fraud_agent_core ("5") ClaimState.init = .error () := by
  decide

/-- What `_sanitize_result` guarantees on any dict: the score is `nan`
exactly when the converted score is `nan`, otherwise clamped into `[0,1]`
(to the nearer bound, with `0.0` on conversion failure), and the decision is
`SUSPECT` exactly when the stripped decision string case-insensitively
equals `"suspect"`. -/
theorem sanitize_obj_spec (kvs : JFields) :
    ∃ score dec, sanitize_result (J.jobj kvs) = .ok (score, dec) ∧
      (score = PyFloat.nan ∨ scoreInUnitB (some score) = true) ∧
      (score = PyFloat.nan ↔
        floatOfJ (JFields.getD kvs ("fraud_score") (J.jnum 0 0)) = .ok PyFloat.nan) ∧
      (floatOfJ (JFields.getD kvs ("fraud_score") (J.jnum 0 0)) = .error () →
        score = PyFloat.finite 0) ∧
      (∀ q : Rat,
        floatOfJ (JFields.getD kvs ("fraud_score") (J.jnum 0 0)) = .ok (.finite q) →
        q < 0 → score = PyFloat.finite 0) ∧
      (∀ q : Rat,
        floatOfJ (JFields.getD kvs ("fraud_score") (J.jnum 0 0)) = .ok (.finite q) →
        1 < q → score = PyFloat.finite 1) ∧
      (∀ q : Rat,
        floatOfJ (JFields.getD kvs ("fraud_score") (J.jnum 0 0)) = .ok (.finite q) →
        0 ≤ q → q ≤ 1 → score = PyFloat.finite q) ∧
      (dec = ("SUSPECT") ↔
        ciEq (strip (pyStr (JFields.getD kvs ("fraud_decision") (J.jstr ("SAFE")))))
          ("suspect") = true) ∧
      (dec = ("SUSPECT") ∨ dec = ("SAFE")) := by
  have h10 : ¬(1 : ℚ) < 0 := by norm_num
  refine ⟨_, _, rfl, ?_, ?_, ?_, ?_, ?_, ?_, ?_, ?_⟩
  case refine_8 =>
    by_cases hd : upper (strip (pyStr (JFields.getD kvs ("fraud_decision")
        (J.jstr ("SAFE"))))) = ("SUSPECT")
    · left; simp only [sanitize_result, hd, if_pos]
    · right; simp only [sanitize_result, hd, if_neg, if_false]
  case refine_7 =>
    have hup : upper ("suspect") = ("SUSPECT") := by decide
    by_cases hd : upper (strip (pyStr (JFields.getD kvs ("fraud_decision")
        (J.jstr ("SAFE"))))) = ("SUSPECT")
    · simp [sanitize_result, hd, ciEq, hup]
    · simp [sanitize_result, hd, ciEq, hup]
  all_goals
    simp only [sanitize_result]
  all_goals
    rcases hF : floatOfJ (JFields.getD kvs ("fraud_score") (J.jnum 0 0))
      with u | f
  case refine_1.error => simp [scoreInUnitB]
  case refine_2.error => simp [hF]
  case refine_3.error => simp
  case refine_4.error => simp [hF]
  case refine_5.error => simp [hF]
  case refine_6.error => simp [hF]
  all_goals cases f
  case refine_1.ok.nan => simp [PyFloat.lt, PyFloat.gt]
  case refine_2.ok.nan => simp [hF, PyFloat.lt, PyFloat.gt]
  case refine_3.ok.nan => simp [hF]
  case refine_4.ok.nan => simp [hF]
  case refine_5.ok.nan => simp [hF]
  case refine_6.ok.nan => simp [hF]
  case refine_1.ok.inf => simp [PyFloat.lt, PyFloat.gt, scoreInUnitB]
  case refine_2.ok.inf => simp [hF, PyFloat.lt, PyFloat.gt]
  case refine_3.ok.inf => simp [hF]
  case refine_4.ok.inf => simp [hF]
  case refine_5.ok.inf => simp [hF]
  case refine_6.ok.inf => simp [hF]
  case refine_1.ok.ninf => simp [PyFloat.lt, PyFloat.gt, scoreInUnitB, h10]
  case refine_2.ok.ninf => simp [hF, PyFloat.lt, PyFloat.gt, h10]
  case refine_3.ok.ninf => simp [hF]
  case refine_4.ok.ninf => simp [hF]
  case refine_5.ok.ninf => simp [hF]
  case refine_6.ok.ninf => simp [hF]
  case refine_1.ok.finite q =>
      right
      by_cases hq0 : q < 0
      · simp [PyFloat.lt, PyFloat.gt, hq0, scoreInUnitB, h10]
      · by_cases hq1 : 1 < q
        · simp [PyFloat.lt, PyFloat.gt, hq0, hq1, scoreInUnitB]
        · simp [PyFloat.lt, PyFloat.gt, hq0, hq1, scoreInUnitB]
          constructor <;> linarith
  case refine_2.ok.finite q =>
      by_cases hq0 : q < 0
      · simp [hF, PyFloat.lt, PyFloat.gt, hq0, h10]
      · by_cases hq1 : 1 < q
        · simp [hF, PyFloat.lt, PyFloat.gt, hq0, hq1]
        · simp [hF, PyFloat.lt, PyFloat.gt, hq0, hq1]
  case refine_3.ok.finite q => simp [hF]
  case refine_4.ok.finite q =>
      intro q' hq' hlt
      simp only [Except.ok.injEq, PyFloat.finite.injEq] at hq'
      subst hq'
      simp [PyFloat.lt, PyFloat.gt, hlt, h10]
  case refine_5.ok.finite q =>
      intro q' hq' hlt
      simp only [Except.ok.injEq, PyFloat.finite.injEq] at hq'
      subst hq'
      have hq0 : ¬q < 0 := by linarith
      simp [PyFloat.lt, PyFloat.gt, hq0, hlt]
  case refine_6.ok.finite q =>
      intro q' hq' h0 h1
      simp only [Except.ok.injEq, PyFloat.finite.injEq] at hq'
      subst hq'
      have hq0 : ¬q < 0 := by linarith
      have hq1 : ¬1 < q := by linarith
      simp [PyFloat.lt, PyFloat.gt, hq0, hq1]

/-- Claim C4 as amended: for every completion output whose parse (with the
stage's fallback) yields a JSON object — every other parse crashes the stage
by `AttributeError`, per the counterexample — the Fraud Scoring update
completes with `fraud_checked` true; the stored score is the converted
`fraud_score` entry clamped to the nearer bound of `[0,1]`, `0.0` on a
non-numeric value, except that a `NaN` score passes both clamp comparisons
and is stored as `nan`; and the decision is `SUSPECT` exactly when the
parsed decision string, after stripping surrounding whitespace,
case-insensitively equals `"suspect"`. -/
theorem C4_fraud_sanitization (raw : String) (s : ClaimState) (kvs : JFields)
    (h : safe_json_parse raw fraudFallbackJ = J.jobj kvs) :
    ∃ s', fraud_agent_core raw s = Except.ok s' ∧
      s'.fraud_checked = true ∧
      (s'.fraud_score = some PyFloat.nan ∨ scoreInUnitB s'.fraud_score = true) ∧
      (s'.fraud_score = some PyFloat.nan ↔
        floatOfJ (JFields.getD kvs ("fraud_score") (J.jnum 0 0)) = .ok PyFloat.nan) ∧
      (floatOfJ (JFields.getD kvs ("fraud_score") (J.jnum 0 0)) = .error () →
        s'.fraud_score = some (PyFloat.finite 0)) ∧
      (∀ q : Rat,
        floatOfJ (JFields.getD kvs ("fraud_score") (J.jnum 0 0)) = .ok (.finite q) →
        q < 0 → s'.fraud_score = some (PyFloat.finite 0)) ∧
      (∀ q : Rat,
        floatOfJ (JFields.getD kvs ("fraud_score") (J.jnum 0 0)) = .ok (.finite q) →
        1 < q → s'.fraud_score = some (PyFloat.finite 1)) ∧
      (∀ q : Rat,
        floatOfJ (JFields.getD kvs ("fraud_score") (J.jnum 0 0)) = .ok (.finite q) →
        0 ≤ q → q ≤ 1 → s'.fraud_score = some (PyFloat.finite q)) ∧
      (s'.fraud_decision = some ("SUSPECT") ↔
        ciEq (strip (pyStr (JFields.getD kvs ("fraud_decision") (J.jstr ("SAFE")))))
          ("suspect") = true) := by
  obtain ⟨score, dec, hs, hunit, hnan, herr, hlo, hhi, hmid, hdec, -⟩ :=
    sanitize_obj_spec kvs
  refine ⟨{ s with
              fraud_checked := true
              fraud_score := some score
              fraud_decision := some dec },
          ?_, rfl, ?_, ?_, ?_, ?_, ?_, ?_, ?_⟩
  · unfold fraud_agent_core
    rw [h, hs]
  · rcases hunit with hu | hu
    · left; rw [hu]
    · right; exact hu
  · simp only [Option.some.injEq]
    exact hnan
  · intro he
    simp only [Option.some.injEq]
    exact herr he
  · intro q hq hlt
    simp only [Option.some.injEq]
    exact hlo q hq hlt
  · intro q hq hlt
    simp only [Option.some.injEq]
    exact hhi q hq hlt
  · intro q hq h0 h1
    simp only [Option.some.injEq]
    exact hmid q hq h0 h1
  · simp only [Option.some.injEq]
    exact hdec

/-- Witness for the amended C4 at a concrete output: score `2.5` clamps to
`1` and decision `"Suspect"` maps to `SUSPECT`. -/
theorem C4_fraud_sanitization_witness :
    ∃ s', fraud_agent_core
        ("\x7b\"fraud_score\": 2.5, \"fraud_decision\": \"Suspect\"\x7d")
        ClaimState.init = Except.ok s' ∧
      s'.fraud_checked = true ∧
      (s'.fraud_score = some PyFloat.nan ∨ scoreInUnitB s'.fraud_score = true) := by
  obtain ⟨s', h1, h2, h3, -⟩ :=
    C4_fraud_sanitization
      ("\x7b\"fraud_score\": 2.5, \"fraud_decision\": \"Suspect\"\x7d")
      ClaimState.init
      (.cons ("fraud_score") (J.jnum 25 (-1))
        (.cons ("fraud_decision") (J.jstr ("Suspect")) .nil))
      (by decide)
  exact ⟨s', h1, h2, h3⟩

/-! ## Round-trip infrastructure: digits and numbers -/

/-- `Char.ofNat` and `Char.toNat` cancel below the surrogate range. -/
theorem toNat_ofNat_lt (n : Nat) (h : n < 55296) : (Char.ofNat n).toNat = n := by
  have hv : n.isValidChar := Or.inl h
  unfold Char.ofNat
  rw [dif_pos hv]
  rfl

/-- A digit character is a digit. -/
theorem isDigit_digitChar (d : Nat) (h : d < 10) : isDigit (digitChar d) = true := by
  simp only [isDigit, digitChar, toNat_ofNat_lt (48 + d) (by omega)]
  simp only [Bool.and_eq_true, decide_eq_true_eq]
  omega

/-- The value of a digit character. -/
theorem digitChar_val (d : Nat) (h : d < 10) : (digitChar d).toNat - 48 = d := by
  simp [digitChar, toNat_ofNat_lt (48 + d) (by omega)]

/-- Digit characters are injective below 10. -/
theorem digitChar_inj (d d' : Nat) (h : d < 10) (h' : d' < 10)
    (he : digitChar d = digitChar d') : d = d' := by
  have := congrArg Char.toNat he
  simp only [digitChar] at this
  rw [toNat_ofNat_lt (48 + d) (by omega), toNat_ofNat_lt (48 + d') (by omega)] at this
  omega

/-- `natOfDigits` over a snoc. -/
theorem natOfDigits_snoc (xs : List Nat) (d : Nat) :
    natOfDigits (xs ++ [d]) = natOfDigits xs * 10 + d := by
  simp [natOfDigits, List.foldl_append]

/-- What `digitsGo` produces: the decimal digit string of `n`, in front of
the accumulator — nonempty, all digits below 10, evaluating back to `n`,
with no leading zero (except for `n = 0`, which is the single digit `0`). -/
theorem digitsGo_spec (n : Nat) : ∃ ds : List Nat,
    ds ≠ [] ∧ (∀ d ∈ ds, d < 10) ∧ natOfDigits ds = n ∧
    (0 < n → ds.head? ≠ some 0) ∧ (n = 0 → ds = [0]) ∧
    ∀ fuel acc, n < fuel → digitsGo fuel n acc = ds.map digitChar ++ acc := by
  induction n using Nat.strong_induction_on with
  | _ n ih =>
    by_cases h10 : n < 10
    · refine ⟨[n], by simp, by simpa using h10, by simp [natOfDigits], ?_, ?_, ?_⟩
      · intro hn
        simp only [List.head?_cons, ne_eq, Option.some.injEq]
        omega
      · intro hn; simp [hn]
      · intro fuel acc hf
        cases fuel with
        | zero => omega
        | succ f => simp [digitsGo, h10]
    · have hdiv : n / 10 < n := Nat.div_lt_self (by omega) (by omega)
      obtain ⟨ds', hne, hlt, hval, hhead, -, hgo⟩ := ih (n / 10) hdiv
      have hd10 : 0 < n / 10 := Nat.div_pos (by omega) (by omega)
      refine ⟨ds' ++ [n % 10], by simp, ?_, ?_, ?_, ?_, ?_⟩
      · intro d hd
        rcases List.mem_append.mp hd with hd | hd
        · exact hlt d hd
        · simp only [List.mem_singleton] at hd
          subst hd
          exact Nat.mod_lt _ (by omega)
      · rw [natOfDigits_snoc, hval]
        omega
      · intro _
        cases ds' with
        | nil => exact absurd rfl hne
        | cons a t =>
            have := hhead hd10
            simpa using this
      · intro h0; omega
      · intro fuel acc hf
        cases fuel with
        | zero => omega
        | succ f =>
            simp only [digitsGo, if_neg h10]
            rw [hgo f (digitChar (n % 10) :: acc) (by omega)]
            simp

/-- The head of input is not a digit (trivially true for empty input). -/
def notDigitHead : List Char → Prop
  | [] => True
  | c :: _ => isDigit c = false

/-- `digitRun` consumes exactly a rendered digit block. -/
theorem digitRun_map (ds : List Nat) (h : ∀ d ∈ ds, d < 10) (rest : List Char)
    (hrest : notDigitHead rest) :
    digitRun (ds.map digitChar ++ rest) = (ds, rest) := by
  induction ds with
  | nil =>
      simp only [List.map_nil, List.nil_append]
      cases rest with
      | nil => rfl
      | cons c cs =>
          simp only [notDigitHead] at hrest
          simp [digitRun, hrest]
  | cons d ds' ih =>
      have hd : d < 10 := h d (by simp)
      simp only [List.map_cons, List.cons_append, digitRun,
        isDigit_digitChar d hd, if_pos]
      rw [List.append_eq, ih (fun x hx => h x (by simp [hx]))]
      simp [digitChar_val d hd]

/-- The rest after a number token: empty, or headed by a character that can
extend neither the digits, the fraction, nor the exponent. -/
def numStop : List Char → Prop
  | [] => True
  | c :: _ => isDigit c = false ∧ c ≠ '.' ∧ c ≠ 'e' ∧ c ≠ 'E'

/-- The rest after a number token never starts with a digit. -/
theorem numStop_notDigitHead (rest : List Char) (h : numStop rest) :
    notDigitHead rest := by
  cases rest with
  | nil => trivial
  | cons c cs =>
      simp only [numStop] at h
      simp only [notDigitHead]
      exact h.1

/-- `parseIntPart` consumes exactly a rendered unsigned integer. -/
theorem parseIntPart_digits (n : Nat) (rest : List Char) (hrest : notDigitHead rest) :
    ∃ ds, parseIntPart (digitsOnto n [] ++ rest) = some (ds, rest) ∧
      natOfDigits ds = n := by
  obtain ⟨ds, hne, hlt, hval, hhead, hzero, hgo⟩ := digitsGo_spec n
  have hrep : digitsOnto n [] = ds.map digitChar := by
    rw [digitsOnto, hgo (n + 1) [] (by omega)]
    simp
  by_cases h0 : n = 0
  · subst h0
    rw [hrep, hzero rfl]
    exact ⟨[0], by simp [parseIntPart, digitChar], by simp [natOfDigits]⟩
  · cases ds with
    | nil => exact absurd rfl hne
    | cons d tl =>
        have hd : d < 10 := hlt d (by simp)
        have hdne : d ≠ 0 := by
          have := hhead (by omega)
          simpa using this
        refine ⟨d :: tl, ?_, hval⟩
        rw [hrep]
        simp only [List.map_cons, List.cons_append, parseIntPart]
        have hne0 : ¬digitChar d = '0' := by
          intro he
          exact hdne (digitChar_inj d 0 hd (by omega) (by simpa [digitChar] using he))
        rw [if_neg hne0, if_pos (isDigit_digitChar d hd)]
        rw [digitRun_map tl (fun x hx => hlt x (by simp [hx])) rest hrest]
        simp [digitChar_val d hd]

/-- A digit character differs from any character outside the digit range. -/
theorem digitChar_ne (d : Nat) (hd : d < 10) (c : Char)
    (hc : c.toNat < 48 ∨ 57 < c.toNat) : digitChar d ≠ c := by
  intro he
  have := congrArg Char.toNat he
  simp only [digitChar, toNat_ofNat_lt (48 + d) (by omega)] at this
  omega

/-- `parseFracPart` takes nothing when the head cannot open a fraction. -/
theorem parseFracPart_stop (cs : List Char)
    (h : cs = [] ∨ ∃ c cs', cs = c :: cs' ∧ c ≠ '.') :
    parseFracPart cs = ([], cs) := by
  rcases h with h | ⟨c, cs', h, hne⟩
  · subst h; rfl
  · subst h; simp [parseFracPart, hne]

/-- `parseExpPart` takes nothing when the head cannot open an exponent. -/
theorem parseExpPart_stop (cs : List Char)
    (h : cs = [] ∨ ∃ c cs', cs = c :: cs' ∧ c ≠ 'e' ∧ c ≠ 'E') :
    parseExpPart cs = (0, cs) := by
  rcases h with h | ⟨c, cs', h, hne, hne'⟩
  · subst h; rfl
  · subst h
    simp only [parseExpPart]
    rw [if_neg]
    simp [hne, hne']

/-- The digit block of a nonzero integer, for the exponent tail: `digitRun`
recovers its value. -/
theorem digitRun_digitsOnto (n : Nat) (rest : List Char) (hrest : notDigitHead rest) :
    ∃ ds, digitRun (digitsOnto n [] ++ rest) = (ds, rest) ∧ ds ≠ [] ∧
      natOfDigits ds = n := by
  obtain ⟨ds, hne, hlt, hval, -, -, hgo⟩ := digitsGo_spec n
  have hrep : digitsOnto n [] = ds.map digitChar := by
    rw [digitsOnto, hgo (n + 1) [] (by omega)]
    simp
  exact ⟨ds, by rw [hrep, digitRun_map ds hlt rest hrest], hne, hval⟩

/-- `parseExpPart` recovers a rendered nonzero exponent. -/
theorem parseExpPart_intChars (e : Int) (_he : e ≠ 0) (rest : List Char)
    (hrest : numStop rest) :
    parseExpPart ('e' :: intChars e ++ rest) = (e, rest) := by
  have hnd := numStop_notDigitHead rest hrest
  simp only [List.cons_append, parseExpPart]
  rw [if_pos (by simp)]
  by_cases hneg : e < 0
  · simp only [intChars, if_pos hneg]
    obtain ⟨ds, hrun, hne, hval⟩ := digitRun_digitsOnto (-e).toNat rest hnd
    simp only [List.cons_append]
    rw [if_neg (by decide), if_pos trivial, hrun]
    cases ds with
    | nil => exact absurd rfl hne
    | cons d tl =>
        simp only []
        congr 1
        rw [hval]
        omega
  · simp only [intChars, if_neg hneg]
    obtain ⟨ds, hgo⟩ := digitsGo_spec e.toNat
    obtain ⟨hne, hlt, hval, -, -, hgo⟩ := hgo
    have hrep : digitsOnto e.toNat [] = ds.map digitChar := by
      rw [digitsOnto, hgo (e.toNat + 1) [] (by omega)]
      simp
    rw [hrep]
    cases ds with
    | nil => exact absurd rfl hne
    | cons d tl =>
        have hd : d < 10 := hlt d (by simp)
        simp only [List.map_cons, List.cons_append]
        rw [if_neg (digitChar_ne d hd '+' (by left; decide)),
            if_neg (digitChar_ne d hd '-' (by left; decide))]
        have : digitRun (digitChar d :: (List.map digitChar tl ++ rest)) =
            (d :: tl, rest) := by
          have := digitRun_map (d :: tl) hlt rest hnd
          simpa using this
        rw [this]
        simp only []
        congr 1
        rw [hval]
        omega

/-- `parseNum` recovers a rendered decimal: the digits of the mantissa
magnitude followed by the exponent block. -/
theorem parseNum_digits (n : Nat) (e : Int) (neg : Bool) (rest : List Char)
    (hrest : numStop rest) :
    parseNum neg
      (digitsOnto n [] ++ ((if e = 0 then [] else 'e' :: intChars e) ++ rest)) =
      some (.jnum (if neg then -(n : Int) else (n : Int)) e, rest) := by
  have htail : notDigitHead ((if e = 0 then [] else 'e' :: intChars e) ++ rest) := by
    by_cases he : e = 0
    · simpa [he] using numStop_notDigitHead rest hrest
    · simp [he, notDigitHead, isDigit]
  obtain ⟨ds, hip, hval⟩ :=
    parseIntPart_digits n ((if e = 0 then [] else 'e' :: intChars e) ++ rest) htail
  simp only [parseNum, hip]
  have hfrac : parseFracPart ((if e = 0 then [] else 'e' :: intChars e) ++ rest) =
      ([], (if e = 0 then [] else 'e' :: intChars e) ++ rest) := by
    apply parseFracPart_stop
    by_cases he : e = 0
    · simp only [he, if_pos, List.nil_append]
      cases rest with
      | nil => exact Or.inl rfl
      | cons c cs =>
          right
          exact ⟨c, cs, rfl, ((numStop.eq_def _).mp hrest |> fun h => h.2.1)⟩
    · right
      exact ⟨'e', intChars e ++ rest, by simp [he], by decide⟩
  rw [hfrac]
  have hexp : parseExpPart ((if e = 0 then [] else 'e' :: intChars e) ++ rest) =
      (e, rest) := by
    by_cases he : e = 0
    · subst he
      simp only [if_pos, List.nil_append]
      apply parseExpPart_stop
      cases rest with
      | nil => exact Or.inl rfl
      | cons c cs =>
          right
          refine ⟨c, cs, rfl, ?_, ?_⟩
          · exact ((numStop.eq_def _).mp hrest).2.2.1
          · exact ((numStop.eq_def _).mp hrest).2.2.2
    · simp only [if_neg he]
      exact parseExpPart_intChars e he rest hrest
  rw [hexp]
  simp [hval]

/-! ## Round-trip infrastructure: strings -/

/-- `hexVal` inverts `hexChar` below 16. -/
theorem hexVal_hexChar (d : Nat) (h : d < 16) : hexVal (hexChar d) = some d := by
  by_cases hd : d < 10
  · simp only [hexChar, if_pos hd, hexVal, toNat_ofNat_lt (48 + d) (by omega)]
    rw [if_pos (by omega)]
    simp only [Option.some.injEq]
    omega
  · simp only [hexChar, if_neg hd, hexVal, toNat_ofNat_lt (97 + (d - 10)) (by omega)]
    rw [if_neg (by omega), if_pos (by omega)]
    simp only [Option.some.injEq]
    omega

/-- `strBody` decodes one escaped character and continues. -/
theorem strBody_step (c : Char) (tail : List Char) :
    strBody (escCharOut c ++ tail) = (strBody tail).map fun p => (c :: p.1, p.2) := by
  simp only [escCharOut]
  split_ifs with h1 h2 h3 h4 h5 h6 h7 h8
  · subst h1; simp [strBody, escCharIn]
  · subst h2; simp [strBody, escCharIn]
  · subst h3; simp [strBody, escCharIn]
  · subst h4; simp [strBody, escCharIn]
  · subst h5; simp [strBody, escCharIn]
  · subst h6; simp [strBody, escCharIn]
  · subst h7; simp [strBody, escCharIn]
  · have hhi : c.toNat / 16 < 16 := by omega
    have hlo : c.toNat % 16 < 16 := by omega
    have h0 : hexVal '0' = some 0 := by decide
    have harith : ((0 * 16 + 0) * 16 + c.toNat / 16) * 16 + c.toNat % 16 = c.toNat := by
      omega
    simp only [List.cons_append, List.nil_append, strBody, h0,
      hexVal_hexChar _ hhi, hexVal_hexChar _ hlo, harith, Char.ofNat_toNat]
    simp
  · simp only [List.singleton_append]
    rw [strBody.eq_def]
    split <;> simp_all

/-- `strBody` decodes a whole escaped body up to the closing quote. -/
theorem strBody_escBody (cs rest : List Char) :
    strBody (escBody cs ++ '"' :: rest) = some (cs, rest) := by
  induction cs with
  | nil => simp [escBody, strBody]
  | cons c cs' ih =>
      have : escBody (c :: cs') = escCharOut c ++ escBody cs' := by
        simp [escBody]
      rw [this, List.append_assoc, strBody_step, ih]
      rfl

/-! ## Round-trip infrastructure: fuel bounds and text shape -/

mutual

/-- Fuel sufficient for `parseVal` on a printed value. -/
def needJ : J → Nat
  | .jarr xs => 1 + needL xs
  | .jobj kvs => 1 + needF kvs
  | _ => 1

/-- Fuel sufficient for `parseElems` on printed elements. -/
def needL : JList → Nat
  | .nil => 0
  | .cons x xs => 1 + max (needJ x) (needL xs)

/-- Fuel sufficient for `parseFields` on printed fields. -/
def needF : JFields → Nat
  | .nil => 0
  | .cons _ v kvs => 1 + max (needJ v) (needF kvs)

end

/-- JSON whitespace is Python whitespace. -/
theorem isPyWs_of_isJsonWs (c : Char) (h : isJsonWs c = true) : isPyWs c = true := by
  simp only [isJsonWs, Bool.or_eq_true, decide_eq_true_eq] at h
  rcases h with ((h | h) | h) | h <;> subst h <;> decide

/-- Not Python whitespace, hence not JSON whitespace. -/
theorem isJsonWs_eq_false (c : Char) (h : isPyWs c = false) : isJsonWs c = false := by
  cases hj : isJsonWs c with
  | false => rfl
  | true => rw [isPyWs_of_isJsonWs c hj] at h; simp at h

/-- `skipWs` is the identity on input not starting with whitespace. -/
theorem skipWs_no_ws (cs : List Char)
    (h : cs = [] ∨ ∃ c cs', cs = c :: cs' ∧ isJsonWs c = false) : skipWs cs = cs := by
  rcases h with h | ⟨c, cs', h, hc⟩
  · subst h; rfl
  · subst h; simp [skipWs, List.dropWhile_cons, hc]

/-- `skipWs` drops a single leading blank. -/
theorem skipWs_blank (l : List Char) : skipWs (' ' :: l) = skipWs l := by
  simp [skipWs, List.dropWhile_cons, isJsonWs]

/-- Every character of a printed digit block is a digit character. -/
theorem mem_digitsOnto (n : Nat) (c : Char) (h : c ∈ digitsOnto n []) :
    ∃ d, d < 10 ∧ c = digitChar d := by
  obtain ⟨ds, -, hlt, -, -, -, hgo⟩ := digitsGo_spec n
  rw [digitsOnto, hgo (n + 1) [] (by omega)] at h
  simp only [List.append_nil, List.mem_map] at h
  obtain ⟨d, hd, hc⟩ := h
  exact ⟨d, hlt d hd, hc.symm⟩

/-- A digit character is not Python whitespace and is none of the JSON
structural stop characters. -/
theorem digitChar_shape (d : Nat) (h : d < 10) :
    isPyWs (digitChar d) = false ∧ digitChar d ≠ ']' ∧ digitChar d ≠ rbrace ∧
      digitChar d ≠ ',' := by
  refine ⟨?_, digitChar_ne d h ']' (by right; decide),
    digitChar_ne d h rbrace (by right; decide),
    digitChar_ne d h ',' (by left; decide)⟩
  simp only [isPyWs, Bool.or_eq_false_iff, decide_eq_false_iff_not]
  have ht := toNat_ofNat_lt (48 + d) (by omega)
  simp only [digitChar] at ht ⊢
  refine ⟨⟨⟨⟨⟨?_, ?_⟩, ?_⟩, ?_⟩, ?_⟩, ?_⟩ <;>
    (intro he; have := congrArg Char.toNat he; rw [ht] at this; simp at this; omega)

/-- The first character of a printed value: never whitespace, never a
closing bracket or brace, never a comma. -/
theorem dumpsL_head (v : J) : ∃ c cs, dumpsL v = c :: cs ∧ isPyWs c = false ∧
    c ≠ ']' ∧ c ≠ rbrace ∧ c ≠ ',' := by
  cases v with
  | jnull => exact ⟨'n', _, rfl, by decide, by decide, by decide, by decide⟩
  | jbool b => cases b with
      | true => exact ⟨'t', _, rfl, by decide, by decide, by decide, by decide⟩
      | false => exact ⟨'f', _, rfl, by decide, by decide, by decide, by decide⟩
  | jnan => exact ⟨'N', _, rfl, by decide, by decide, by decide, by decide⟩
  | jinf => exact ⟨'I', _, rfl, by decide, by decide, by decide, by decide⟩
  | jninf => exact ⟨'-', _, rfl, by decide, by decide, by decide, by decide⟩
  | jstr s => exact ⟨'"', _, rfl, by decide, by decide, by decide, by decide⟩
  | jarr xs => exact ⟨'[', _, rfl, by decide, by decide, by decide, by decide⟩
  | jobj kvs => exact ⟨lbrace, _, rfl, by decide, by decide, by decide, by decide⟩
  | jnum m e =>
      have hsplit : ∃ c cs, intChars m = c :: cs ∧ isPyWs c = false ∧
          c ≠ ']' ∧ c ≠ rbrace ∧ c ≠ ',' := by
        by_cases hm : m < 0
        · exact ⟨'-', digitsOnto (-m).toNat [],
            by simp only [intChars, if_pos hm], by decide, by decide, by decide,
            by decide⟩
        · simp only [intChars, if_neg hm]
          obtain ⟨ds, hne, hlt, -, -, -, hgo⟩ := digitsGo_spec m.toNat
          cases ds with
          | nil => exact absurd rfl hne
          | cons d tl =>
              have hd := hlt d (by simp)
              obtain ⟨h1, h2, h3, h4⟩ := digitChar_shape d hd
              exact ⟨digitChar d, List.map digitChar tl,
                by rw [digitsOnto, hgo (m.toNat + 1) [] (by omega)]; simp,
                h1, h2, h3, h4⟩
      obtain ⟨c, cs, hrep, h1, h2, h3, h4⟩ := hsplit
      by_cases he : e = 0
      · exact ⟨c, cs, by simp [dumpsL, numChars, he, hrep], h1, h2, h3, h4⟩
      · exact ⟨c, cs ++ 'e' :: intChars e,
          by simp [dumpsL, numChars, he, hrep], h1, h2, h3, h4⟩

/-- A printed digit block starts with a digit character. -/
theorem digitsOnto_cons (n : Nat) : ∃ d tl, d < 10 ∧
    digitsOnto n [] = digitChar d :: List.map digitChar tl := by
  obtain ⟨ds, hne, hlt, -, -, -, hgo⟩ := digitsGo_spec n
  cases ds with
  | nil => exact absurd rfl hne
  | cons d tl =>
      exact ⟨d, tl, hlt d (by simp),
        by rw [digitsOnto, hgo (n + 1) [] (by omega)]; simp⟩

/-- `parseVal` dispatches a digit-headed input to the number parser. -/
theorem parseVal_digit_dispatch (g n : Nat) (l : List Char) :
    parseVal (g + 1) (digitsOnto n [] ++ l) = parseNum false (digitsOnto n [] ++ l) := by
  obtain ⟨d, tl, hd, hrep⟩ := digitsOnto_cons n
  rw [hrep]
  simp only [List.cons_append, parseVal]
  rw [if_neg (digitChar_ne d hd lbrace (by right; decide)),
      if_neg (digitChar_ne d hd '[' (by right; decide)),
      if_neg (digitChar_ne d hd '"' (by left; decide)),
      if_neg (digitChar_ne d hd 't' (by right; decide)),
      if_neg (digitChar_ne d hd 'f' (by right; decide)),
      if_neg (digitChar_ne d hd 'n' (by right; decide)),
      if_neg (digitChar_ne d hd 'N' (by right; decide)),
      if_neg (digitChar_ne d hd 'I' (by right; decide)),
      if_neg (digitChar_ne d hd '-' (by left; decide)),
      if_pos (isDigit_digitChar d hd)]

/-- `parseVal` dispatches a minus-then-digit input to the number parser. -/
theorem parseVal_neg_dispatch (g n : Nat) (l : List Char) :
    parseVal (g + 1) ('-' :: (digitsOnto n [] ++ l)) =
      parseNum true (digitsOnto n [] ++ l) := by
  obtain ⟨d, tl, hd, hrep⟩ := digitsOnto_cons n
  rw [hrep]
  simp only [List.cons_append, parseVal]
  rw [if_neg (by decide : ¬ '-' = lbrace), if_neg (by decide : ¬ '-' = '['),
      if_neg (by decide : ¬ '-' = '"'), if_neg (by decide : ¬ '-' = 't'),
      if_neg (by decide : ¬ '-' = 'f'), if_neg (by decide : ¬ '-' = 'n'),
      if_neg (by decide : ¬ '-' = 'N'), if_neg (by decide : ¬ '-' = 'I'),
      if_pos trivial]
  split
  · rename_i heq
    exact absurd (by injection heq) (digitChar_ne d hd 'I' (by right; decide))
  · rfl

/-- Rebuilding a string from its character data is the identity. -/
theorem string_mk_data (s : String) : (⟨s.data⟩ : String) = s := rfl

/-- The trailer of printed later array elements satisfies `numStop`. -/
theorem numStop_arrTail (xs : JList) (rest : List Char) :
    numStop (dumpsArrTail xs ++ ']' :: rest) := by
  cases xs with
  | nil => exact ⟨by decide, by decide, by decide, by decide⟩
  | cons y ys => exact ⟨by decide, by decide, by decide, by decide⟩

/-- The trailer of printed later object fields satisfies `numStop`. -/
theorem numStop_objTail (kvs : JFields) (rest : List Char) :
    numStop (dumpsObjTail kvs ++ rbrace :: rest) := by
  cases kvs with
  | nil => exact ⟨by decide, by decide, by decide, by decide⟩
  | cons k v t => exact ⟨by decide, by decide, by decide, by decide⟩

/-- Printed values never start with whitespace, so `skipWs` leaves them
alone. -/
theorem skipWs_dumpsL (x : J) (t : List Char) :
    skipWs (dumpsL x ++ t) = dumpsL x ++ t := by
  obtain ⟨c, cs, hx, hpws, -, -, -⟩ := dumpsL_head x
  rw [hx]
  simp only [List.cons_append]
  exact skipWs_no_ws _ (Or.inr ⟨c, _, rfl, isJsonWs_eq_false c hpws⟩)

mutual

/-- Completeness of the parser against the printer: a printed value followed
by any trailer that cannot extend a number token parses back to itself, for
any sufficient fuel. -/
theorem parseVal_dumpsL :
    ∀ (v : J) (f : Nat) (rest : List Char), needJ v ≤ f → numStop rest →
      parseVal f (dumpsL v ++ rest) = some (v, rest)
  | .jnull, f, rest, hf, _ => by
      cases f with
      | zero => simp [needJ] at hf
      | succ g => rfl
  | .jbool true, f, rest, hf, _ => by
      cases f with
      | zero => simp [needJ] at hf
      | succ g => rfl
  | .jbool false, f, rest, hf, _ => by
      cases f with
      | zero => simp [needJ] at hf
      | succ g => rfl
  | .jnan, f, rest, hf, _ => by
      cases f with
      | zero => simp [needJ] at hf
      | succ g => rfl
  | .jinf, f, rest, hf, _ => by
      cases f with
      | zero => simp [needJ] at hf
      | succ g => rfl
  | .jninf, f, rest, hf, _ => by
      cases f with
      | zero => simp [needJ] at hf
      | succ g => rfl
  | .jnum m e, f, rest, hf, hrest => by
      cases f with
      | zero => simp [needJ] at hf
      | succ g =>
          have hnum : dumpsL (.jnum m e) =
              intChars m ++ (if e = 0 then [] else 'e' :: intChars e) := by
            simp only [dumpsL, numChars]
            split <;> simp
          rw [hnum]
          by_cases hm : m < 0
          · have hic : intChars m = '-' :: digitsOnto (-m).toNat [] := by
              simp [intChars, hm]
            rw [hic]
            simp only [List.cons_append, List.append_assoc]
            rw [parseVal_neg_dispatch, parseNum_digits (-m).toNat e true rest hrest]
            have hmt : ((-m).toNat : Int) = -m := Int.toNat_of_nonneg (by omega)
            simp [hmt]
          · have hic : intChars m = digitsOnto m.toNat [] := by
              simp [intChars, hm]
            rw [hic]
            simp only [List.append_assoc]
            rw [parseVal_digit_dispatch, parseNum_digits m.toNat e false rest hrest]
            have hmt : (m.toNat : Int) = m := Int.toNat_of_nonneg (by omega)
            simp [hmt]
  | .jstr s, f, rest, hf, _ => by
      cases f with
      | zero => simp [needJ] at hf
      | succ g =>
          have hshape : dumpsL (.jstr s) ++ rest =
              '"' :: (escBody s.data ++ '"' :: rest) := by
            simp [dumpsL, strLit]
          rw [hshape]
          simp only [parseVal]
          rw [if_neg (by decide : ¬ '"' = lbrace), if_neg (by decide : ¬ '"' = '['),
              if_pos trivial, strBody_escBody s.data rest]
          simp [string_mk_data]
  | .jarr .nil, f, rest, hf, _ => by
      cases f with
      | zero => simp [needJ] at hf
      | succ g => rfl
  | .jarr (.cons x xs), f, rest, hf, hrest => by
      cases f with
      | zero => simp [needJ] at hf
      | succ g =>
          have hneed : needL (.cons x xs) ≤ g := by
            simp only [needJ] at hf
            omega
          have hshape : dumpsL (.jarr (.cons x xs)) ++ rest =
              '[' :: (dumpsL x ++ (dumpsArrTail xs ++ ']' :: rest)) := by
            simp [dumpsL, dumpsArr]
          rw [hshape]
          simp only [parseVal]
          rw [if_neg (by decide : ¬ '[' = lbrace), if_pos trivial]
          obtain ⟨c, cs, hx, hpws, hne1, hne2, hne3⟩ := dumpsL_head x
          rw [hx]
          simp only [List.cons_append]
          rw [skipWs_no_ws _ (Or.inr ⟨c, _, rfl, isJsonWs_eq_false c hpws⟩)]
          simp only []
          rw [if_neg hne1]
          have := parseElems_dumpsArr x xs g rest hneed hrest
          rw [hx] at this
          simp only [List.cons_append] at this
          rw [this]
          rfl
  | .jobj .nil, f, rest, hf, _ => by
      cases f with
      | zero => simp [needJ] at hf
      | succ g => rfl
  | .jobj (.cons k v kvs), f, rest, hf, hrest => by
      cases f with
      | zero => simp [needJ] at hf
      | succ g =>
          have hneed : needF (.cons k v kvs) ≤ g := by
            simp only [needJ] at hf
            omega
          have hshape : dumpsL (.jobj (.cons k v kvs)) ++ rest =
              lbrace :: (strLit k ++
                (':' :: ' ' :: (dumpsL v ++ (dumpsObjTail kvs ++ rbrace :: rest)))) := by
            simp [dumpsL, dumpsObj, strLit]
          rw [hshape]
          simp only [parseVal]
          rw [if_pos trivial]
          have hsl : strLit k ++
              (':' :: ' ' :: (dumpsL v ++ (dumpsObjTail kvs ++ rbrace :: rest))) =
              '"' :: (escBody k.data ++
                ('"' :: ':' :: ' ' :: (dumpsL v ++ (dumpsObjTail kvs ++ rbrace :: rest)))) := by
            simp [strLit]
          rw [hsl]
          rw [skipWs_no_ws _ (Or.inr ⟨'"', _, rfl, by decide⟩)]
          simp only []
          rw [if_neg (by decide : ¬ '"' = rbrace)]
          have := parseFields_dumpsObj k v kvs g rest hneed hrest
          rw [this]
          rfl
  termination_by v => sizeOf v

/-- Completeness for a printed nonempty element list through the closing
bracket. -/
theorem parseElems_dumpsArr :
    ∀ (x : J) (xs : JList) (f : Nat) (rest : List Char),
      needL (.cons x xs) ≤ f → numStop rest →
      parseElems f (dumpsL x ++ (dumpsArrTail xs ++ ']' :: rest)) =
        some (.cons x xs, rest)
  | x, xs, f, rest, hf, hrest => by
      cases f with
      | zero => simp [needL] at hf
      | succ g =>
          have hnx : needJ x ≤ g := by
            simp only [needL] at hf
            omega
          have hnxs : needL xs ≤ g := by
            simp only [needL] at hf
            omega
          simp only [parseElems]
          rw [parseVal_dumpsL x g (dumpsArrTail xs ++ ']' :: rest) hnx
            (numStop_arrTail xs rest)]
          cases xs with
          | nil =>
              simp only [dumpsArrTail, List.nil_append]
              rw [skipWs_no_ws _ (Or.inr ⟨']', rest, rfl, by decide⟩)]
              simp
          | cons y ys =>
              simp only [dumpsArrTail, List.cons_append, List.append_assoc]
              rw [skipWs_no_ws _ (Or.inr ⟨',', _, rfl, by decide⟩)]
              simp only []
              rw [if_pos trivial]
              rw [skipWs_blank]
              rw [skipWs_dumpsL y]
              rw [parseElems_dumpsArr y ys g rest hnxs hrest]
              rfl
  termination_by x xs => sizeOf x + sizeOf xs + 1

/-- Completeness for a printed nonempty field list through the closing
brace. -/
theorem parseFields_dumpsObj :
    ∀ (k : String) (v : J) (kvs : JFields) (f : Nat) (rest : List Char),
      needF (.cons k v kvs) ≤ f → numStop rest →
      parseFields f ('"' :: (escBody k.data ++
          ('"' :: ':' :: ' ' :: (dumpsL v ++ (dumpsObjTail kvs ++ rbrace :: rest))))) =
        some (.cons k v kvs, rest)
  | k, v, kvs, f, rest, hf, hrest => by
      cases f with
      | zero => simp [needF] at hf
      | succ g =>
          have hnv : needJ v ≤ g := by
            simp only [needF] at hf
            omega
          have hnkvs : needF kvs ≤ g := by
            simp only [needF] at hf
            omega
          simp only [parseFields]
          rw [if_pos trivial, strBody_escBody k.data]
          simp only []
          rw [skipWs_no_ws _ (Or.inr ⟨':', _, rfl, by decide⟩)]
          simp only []
          rw [if_pos trivial]
          rw [skipWs_blank]
          rw [skipWs_dumpsL v]
          rw [parseVal_dumpsL v g (dumpsObjTail kvs ++ rbrace :: rest) hnv
            (numStop_objTail kvs rest)]
          simp only []
          cases kvs with
          | nil =>
              simp only [dumpsObjTail, List.nil_append]
              rw [skipWs_no_ws _ (Or.inr ⟨rbrace, rest, rfl, by decide⟩)]
              simp only []
              rw [if_neg (by decide : ¬rbrace = ','), if_pos trivial]
          | cons k' v' t =>
              simp only [dumpsObjTail, List.cons_append, List.append_assoc]
              rw [skipWs_no_ws _ (Or.inr ⟨',', _, rfl, by decide⟩)]
              simp only []
              rw [if_pos trivial]
              rw [skipWs_blank]
              have hsl : strLit k' ++
                  (':' :: ' ' :: (dumpsL v' ++ (dumpsObjTail t ++ rbrace :: rest))) =
                  '"' :: (escBody k'.data ++
                    ('"' :: ':' :: ' ' :: (dumpsL v' ++ (dumpsObjTail t ++ rbrace :: rest)))) := by
                simp [strLit]
              rw [show skipWs (strLit k' ++
                  (':' :: ' ' :: (dumpsL v' ++ (dumpsObjTail t ++ rbrace :: rest)))) =
                  strLit k' ++
                  (':' :: ' ' :: (dumpsL v' ++ (dumpsObjTail t ++ rbrace :: rest))) from
                by rw [hsl]; exact skipWs_no_ws _ (Or.inr ⟨'"', _, rfl, by decide⟩)]
              rw [hsl]
              have := parseFields_dumpsObj k' v' t g rest hnkvs hrest
              rw [this]
              simp [string_mk_data]
  termination_by _k v kvs => sizeOf v + sizeOf kvs + 1

end

mutual

/-- The fuel needed to reparse a printed value is at most its printed
length plus one. -/
theorem needJ_le : ∀ (v : J), needJ v ≤ (dumpsL v).length + 1
  | .jnull => by simp [needJ, dumpsL]
  | .jbool true => by simp [needJ, dumpsL]
  | .jbool false => by simp [needJ, dumpsL]
  | .jnum m e => by simp [needJ]
  | .jnan => by simp [needJ, dumpsL]
  | .jinf => by simp [needJ, dumpsL]
  | .jninf => by simp [needJ, dumpsL]
  | .jstr s => by simp [needJ]
  | .jarr .nil => by simp [needJ, needL, dumpsL, dumpsArr]
  | .jarr (.cons x xs) => by
      have h1 := needJ_le x
      have h2 := needL_le xs
      simp only [needJ, needL, dumpsL, dumpsArr, List.length_cons,
        List.length_append]
      omega
  | .jobj .nil => by simp [needJ, needF, dumpsL, dumpsObj]
  | .jobj (.cons k v kvs) => by
      have h1 := needJ_le v
      have h2 := needF_le kvs
      simp only [needJ, needF, dumpsL, dumpsObj, List.length_cons,
        List.length_append]
      omega

/-- The fuel needed to reparse printed later elements is at most their
printed length. -/
theorem needL_le : ∀ (xs : JList), needL xs ≤ (dumpsArrTail xs).length
  | .nil => by simp [needL, dumpsArrTail]
  | .cons x xs => by
      have h1 := needJ_le x
      have h2 := needL_le xs
      simp only [needL, dumpsArrTail, List.length_cons, List.length_append]
      omega

/-- The fuel needed to reparse printed later fields is at most their
printed length. -/
theorem needF_le : ∀ (kvs : JFields), needF kvs ≤ (dumpsObjTail kvs).length
  | .nil => by simp [needF, dumpsObjTail]
  | .cons k v kvs => by
      have h1 := needJ_le v
      have h2 := needF_le kvs
      simp only [needF, dumpsObjTail, List.length_cons, List.length_append]
      omega

end

/-- C5 core round trip: `json.loads` inverts `json.dumps` on every value of
the JSON model. -/
theorem loads_dumps (v : J) : loads (dumps v) = some v := by
  have h1 : skipWs (dumpsL v) = dumpsL v := by
    have := skipWs_dumpsL v []
    simpa using this
  have hb : needJ v ≤ 2 * (dumpsL v).length + 2 := by
    have := needJ_le v
    omega
  have h2 : parseVal (2 * (dumpsL v).length + 2) (dumpsL v) = some (v, []) := by
    have := parseVal_dumpsL v (2 * (dumpsL v).length + 2) [] hb trivial
    simpa using this
  have h0 : (dumps v).data = dumpsL v := rfl
  simp only [loads, h0, h1, h2]
  rfl

/-! ## Failure of the direct decode on prose-led text

A fence marker character (backtick or tilde) acts as a barrier for the JSON
scanner: outside of string literals no rule consumes it, and a string
literal cannot open without a double quote. So on input whose first marker
character is not preceded by any double quote, a successful parse must
leave the marker in the remainder, and the whole-text decode of strategy 1
fails its end-of-input check. -/

/-- A marker character stands somewhere in the list with no double quote
and no earlier marker before it. -/
def Clean (b : Char) (cs : List Char) : Prop :=
  ∃ u w, cs = u ++ b :: w ∧ b ∉ u ∧ '"' ∉ u

/-- Splitting a consumed prefix off a list keeps the first barrier in the
remainder when the prefix avoids the barrier. -/
theorem append_barrier (b : Char) :
    ∀ (a u r w : List Char), a ++ r = u ++ b :: w → b ∉ a → b ∉ u →
      ∃ u2, u = a ++ u2 ∧ r = u2 ++ b :: w
  | [], u, r, w, h, _, _ => ⟨u, rfl, by simpa using h⟩
  | c :: a2, u, r, w, h, ha, hu => by
      cases u with
      | nil =>
          simp only [List.nil_append] at h
          have hc : c = b := by
            have := congrArg (fun l => l.head?) h
            simpa using this
          exact absurd (hc ▸ List.mem_cons_self c a2) ha
      | cons d u2 =>
          simp only [List.cons_append, List.cons.injEq] at h
          obtain ⟨hcd, h2⟩ := h
          obtain ⟨u3, hu3, hr⟩ := append_barrier b a2 u2 r w h2
            (fun hm => ha (List.mem_cons_of_mem c hm))
            (fun hm => hu (List.mem_cons_of_mem d hm))
          exact ⟨u3, by simp [hcd, hu3], hr⟩

/-- Consuming a barrier-free prefix preserves cleanliness. -/
theorem clean_consume (b : Char) (a r : List Char)
    (h : Clean b (a ++ r)) (ha : b ∉ a) : Clean b r := by
  obtain ⟨u, w, he, hbu, hqu⟩ := h
  obtain ⟨u2, hu2, hr⟩ := append_barrier b a u r w he ha hbu
  refine ⟨u2, w, hr, ?_, ?_⟩
  · exact fun hm => hbu (hu2 ▸ List.mem_append_right a hm)
  · exact fun hm => hqu (hu2 ▸ List.mem_append_right a hm)

/-- `skipWs` can never cross a non-whitespace barrier. -/
theorem skipWs_append_bar (b : Char) (hb : isJsonWs b = false) :
    ∀ (u w : List Char),
      skipWs (u ++ b :: w) = u.dropWhile isJsonWs ++ b :: w
  | [], w => by simp [skipWs, List.dropWhile, hb]
  | c :: u, w => by
      by_cases hc : isJsonWs c = true
      · simp only [skipWs, List.cons_append, List.dropWhile_cons, hc, if_true]
        exact skipWs_append_bar b hb u w
      · simp only [skipWs, List.cons_append, List.dropWhile_cons,
          eq_false_of_ne_true hc, if_false]
        simp

/-- `skipWs` preserves cleanliness for a non-whitespace barrier. -/
theorem clean_skipWs (b : Char) (hb : isJsonWs b = false) (cs : List Char)
    (h : Clean b cs) : Clean b (skipWs cs) := by
  obtain ⟨u, w, he, hbu, hqu⟩ := h
  refine ⟨u.dropWhile isJsonWs, w, by rw [he, skipWs_append_bar b hb], ?_, ?_⟩
  · exact fun hm => hbu ((List.dropWhile_sublist _).subset hm)
  · exact fun hm => hqu ((List.dropWhile_sublist _).subset hm)

/-- A clean list survives `skipWs` nonempty: the barrier is still there. -/
theorem clean_skipWs_ne_nil (b : Char) (hb : isJsonWs b = false)
    (cs : List Char) (h : Clean b cs) : skipWs cs ≠ [] := by
  obtain ⟨u, w, he, hbu, hqu⟩ := h
  rw [he, skipWs_append_bar b hb]
  cases hd : u.dropWhile isJsonWs <;> simp [hd]

/-- `digitRun` consumes only digits. -/
theorem digitRun_consumed :
    ∀ (cs : List Char), ∃ a, cs = a ++ (digitRun cs).2 ∧
      ∀ c ∈ a, isDigit c = true
  | [] => ⟨[], by simp [digitRun]⟩
  | c :: cs => by
      by_cases hc : isDigit c = true
      · obtain ⟨a, ha, hd⟩ := digitRun_consumed cs
        refine ⟨c :: a, ?_, ?_⟩
        · simp [digitRun, hc]
          exact ha
        · intro x hx
          rcases List.mem_cons.mp hx with rfl | hx
          · exact hc
          · exact hd x hx
      · exact ⟨[], by simp [digitRun, eq_false_of_ne_true hc]⟩

/-- `parseIntPart` consumes only digits. -/
theorem parseIntPart_consumed (cs : List Char) (ds : List Nat)
    (r : List Char) (h : parseIntPart cs = some (ds, r)) :
    ∃ a, cs = a ++ r ∧ ∀ c ∈ a, isDigit c = true := by
  match cs with
  | [] => simp [parseIntPart] at h
  | c :: cs =>
      by_cases h0 : c = '0'
      · subst h0
        simp [parseIntPart] at h
        exact ⟨['0'], by simp [h.2], by intro x hx; simp at hx; subst hx; decide⟩
      · by_cases hc : isDigit c = true
        · simp only [parseIntPart, if_neg h0, hc, if_true, Option.some.injEq,
            Prod.mk.injEq] at h
          obtain ⟨a, ha, hd⟩ := digitRun_consumed cs
          refine ⟨c :: a, ?_, ?_⟩
          · rw [h.2] at ha
            simp [ha]
          · intro x hx
            rcases List.mem_cons.mp hx with rfl | hx
            · exact hc
            · exact hd x hx
        · simp [parseIntPart, if_neg h0, eq_false_of_ne_true hc] at h

/-- `parseFracPart` consumes only digits and the decimal point. -/
theorem parseFracPart_consumed (cs : List Char) :
    ∃ a, cs = a ++ (parseFracPart cs).2 ∧
      ∀ c ∈ a, isDigit c = true ∨ c = '.' := by
  match cs with
  | [] => exact ⟨[], by simp [parseFracPart]⟩
  | c :: cs =>
      by_cases hc : c = '.'
      · subst hc
        obtain ⟨a, ha, hd⟩ := digitRun_consumed cs
        rcases hr : digitRun cs with ⟨ds, rest⟩
        cases ds with
        | nil => exact ⟨[], by simp [parseFracPart, hr]⟩
        | cons d ds =>
            refine ⟨'.' :: a, ?_, ?_⟩
            · simp only [parseFracPart, if_pos rfl, hr]
              rw [hr] at ha
              simp [ha]
            · intro x hx
              rcases List.mem_cons.mp hx with rfl | hx
              · exact Or.inr rfl
              · exact Or.inl (hd x hx)
      · exact ⟨[], by simp [parseFracPart, hc]⟩

/-- `parseExpPart` consumes only digits, the exponent letter and a sign. -/
theorem parseExpPart_consumed (cs : List Char) :
    ∃ a, cs = a ++ (parseExpPart cs).2 ∧
      ∀ c ∈ a, isDigit c = true ∨ c = 'e' ∨ c = 'E' ∨ c = '+' ∨ c = '-' := by
  match cs with
  | [] => exact ⟨[], by simp [parseExpPart]⟩
  | c :: cs =>
      by_cases hc : c = 'e' ∨ c = 'E'
      · match cs with
        | [] => exact ⟨[], by simp [parseExpPart, hc]⟩
        | s :: cs2 =>
            by_cases hsp : s = '+'
            · subst hsp
              obtain ⟨a, ha, hd⟩ := digitRun_consumed cs2
              rcases hr : digitRun cs2 with ⟨ds, rest⟩
              cases ds with
              | nil => exact ⟨[], by simp [parseExpPart, hc, hr]⟩
              | cons d ds =>
                  refine ⟨c :: '+' :: a, ?_, ?_⟩
                  · simp only [parseExpPart, hc, if_true, if_pos rfl, hr]
                    rw [hr] at ha
                    simp [ha]
                  · intro x hx
                    rcases List.mem_cons.mp hx with rfl | hx
                    · right; rcases hc with rfl | rfl
                      · exact Or.inl rfl
                      · exact Or.inr (Or.inl rfl)
                    rcases List.mem_cons.mp hx with rfl | hx
                    · right; right; right; exact Or.inl rfl
                    · exact Or.inl (hd x hx)
            · by_cases hsm : s = '-'
              · subst hsm
                obtain ⟨a, ha, hd⟩ := digitRun_consumed cs2
                rcases hr : digitRun cs2 with ⟨ds, rest⟩
                cases ds with
                | nil => exact ⟨[], by simp [parseExpPart, hc, hr]⟩
                | cons d ds =>
                    refine ⟨c :: '-' :: a, ?_, ?_⟩
                    · simp only [parseExpPart, hc, if_true,
                        if_neg (by decide : ¬('-' : Char) = '+'), if_pos rfl, hr]
                      rw [hr] at ha
                      simp [ha]
                    · intro x hx
                      rcases List.mem_cons.mp hx with rfl | hx
                      · right; rcases hc with rfl | rfl
                        · exact Or.inl rfl
                        · exact Or.inr (Or.inl rfl)
                      rcases List.mem_cons.mp hx with rfl | hx
                      · right; right; right; exact Or.inr rfl
                      · exact Or.inl (hd x hx)
              · obtain ⟨a, ha, hd⟩ := digitRun_consumed (s :: cs2)
                rcases hr : digitRun (s :: cs2) with ⟨ds, rest⟩
                cases ds with
                | nil => exact ⟨[], by simp [parseExpPart, hc, hsp, hsm, hr]⟩
                | cons d ds =>
                    refine ⟨c :: a, ?_, ?_⟩
                    · simp only [parseExpPart, hc, if_true, if_neg hsp,
                        if_neg hsm, hr]
                      rw [hr] at ha
                      simp [ha]
                    · intro x hx
                      rcases List.mem_cons.mp hx with rfl | hx
                      · right; rcases hc with rfl | rfl
                        · exact Or.inl rfl
                        · exact Or.inr (Or.inl rfl)
                      · exact Or.inl (hd x hx)
      · exact ⟨[], by simp [parseExpPart, hc]⟩

/-- A fence marker character is never a number character. -/
def numBarrier (b : Char) : Prop :=
  isDigit b = false ∧ b ≠ '.' ∧ b ≠ 'e' ∧ b ≠ 'E' ∧ b ≠ '+' ∧ b ≠ '-'

/-- `parseNum` preserves cleanliness: a number token never contains the
barrier. -/
theorem parseNum_barrier (b : Char) (hb : numBarrier b) (neg : Bool)
    (cs : List Char) (j : J) (r : List Char)
    (h : parseNum neg cs = some (j, r)) (hc : Clean b cs) : Clean b r := by
  obtain ⟨hd, hdot, he, hE, hplus, hminus⟩ := hb
  rcases hip : parseIntPart cs with - | ⟨ds, r1⟩
  · simp [parseNum, hip] at h
  · have hr : r = (parseExpPart (parseFracPart r1).2).2 := by
      simp only [parseNum, hip] at h
      exact (Prod.mk.injEq _ _ _ _ ▸ (Option.some.injEq _ _ ▸ h)).2.symm
    obtain ⟨a1, ha1, hda1⟩ := parseIntPart_consumed cs ds r1 hip
    obtain ⟨a2, ha2, hda2⟩ := parseFracPart_consumed r1
    obtain ⟨a3, ha3, hda3⟩ := parseExpPart_consumed (parseFracPart r1).2
    have hc1 : Clean b r1 := by
      refine clean_consume b a1 r1 (ha1 ▸ hc) fun hm => ?_
      have := hda1 b hm
      simp [this] at hd
    have hc2 : Clean b (parseFracPart r1).2 := by
      refine clean_consume b a2 _ (ha2 ▸ hc1) fun hm => ?_
      rcases hda2 b hm with h2 | h2
      · simp [h2] at hd
      · exact hdot h2
    rw [hr]
    refine clean_consume b a3 _ (ha3 ▸ hc2) fun hm => ?_
    rcases hda3 b hm with h3 | h3 | h3 | h3 | h3
    · simp [h3] at hd
    · exact he h3
    · exact hE h3
    · exact hplus h3
    · exact hminus h3

/-- Marker characters satisfy every number-barrier condition. -/
theorem marker_numBarrier (b : Char) (hb : b = btick ∨ b = '~') :
    numBarrier b := by
  rcases hb with rfl | rfl <;>
    exact ⟨by decide, by decide, by decide, by decide, by decide, by decide⟩

/-- `parseFields` fails outright on clean input: no key string can open
without a double quote before the barrier. -/
theorem parseFields_clean_none (b : Char) (hbq : b ≠ '"') (f : Nat)
    (cs : List Char) (hc : Clean b cs) : parseFields f cs = none := by
  obtain ⟨u, w, he, hbu, hqu⟩ := hc
  subst he
  cases f with
  | zero => rfl
  | succ g =>
      cases u with
      | nil =>
          simp only [List.nil_append, parseFields]
          rw [if_neg hbq]
      | cons c u2 =>
          have hcq : c ≠ '"' := fun h => hqu (h ▸ List.mem_cons_self c u2)
          simp only [List.cons_append, parseFields]
          rw [if_neg hcq]

set_option maxHeartbeats 1600000

mutual

/-- A successful `parseVal` on clean input leaves a clean remainder: the
first marker character is never consumed. -/
theorem parseVal_barrier (b : Char) (hb : b = btick ∨ b = '~') :
    ∀ (f : Nat) (cs : List Char) (v : J) (r : List Char),
      parseVal f cs = some (v, r) → Clean b cs → Clean b r
  | 0, cs, v, r, h, _ => by simp [parseVal] at h
  | f + 1, cs, v, r, h, hc => by
      have hbq : b ≠ '"' := by rcases hb with rfl | rfl <;> decide
      have hbws : isJsonWs b = false := by rcases hb with rfl | rfl <;> decide
      obtain ⟨u, w, he, hbu, hqu⟩ := hc
      subst he
      cases u with
      | nil =>
          simp only [List.nil_append] at h
          rcases hb with rfl | rfl
          · exact Option.noConfusion
              ((rfl : parseVal (f + 1) (btick :: w) = none).symm.trans h)
          · exact Option.noConfusion
              ((rfl : parseVal (f + 1) ('~' :: w) = none).symm.trans h)
      | cons c u2 =>
          have hbu2 : b ∉ u2 := fun hm => hbu (List.mem_cons_of_mem c hm)
          have hqu2 : '"' ∉ u2 := fun hm => hqu (List.mem_cons_of_mem c hm)
          simp only [List.cons_append, parseVal] at h
          split_ifs at h with h1 h2 h3 h4 h5 h6 h7 h8 h9 h10
          · -- object
            rw [skipWs_append_bar b hbws] at h
            cases hu3 : u2.dropWhile isJsonWs with
            | nil =>
                rw [hu3] at h
                simp only [List.nil_append] at h
                rw [if_neg (show b ≠ rbrace by rcases hb with rfl | rfl <;> decide)] at h
                rw [parseFields_clean_none b hbq f (b :: w)
                  ⟨[], w, rfl, by simp, by simp⟩] at h
                exact Option.noConfusion h
            | cons c2 u4 =>
                rw [hu3] at h
                simp only [List.cons_append] at h
                have hmem : ∀ x ∈ c2 :: u4, x ∈ u2 :=
                  fun x hx => (List.dropWhile_sublist _).subset (hu3 ▸ hx)
                by_cases hc2 : c2 = rbrace
                · rw [if_pos hc2] at h
                  simp only [Option.some.injEq, Prod.mk.injEq] at h
                  refine ⟨u4, w, h.2.symm, ?_, ?_⟩
                  · exact fun hm => hbu2 (hmem b (List.mem_cons_of_mem c2 hm))
                  · exact fun hm => hqu2 (hmem '"' (List.mem_cons_of_mem c2 hm))
                · rw [if_neg hc2] at h
                  rw [parseFields_clean_none b hbq f (c2 :: (u4 ++ b :: w))
                    ⟨c2 :: u4, w, rfl,
                      fun hm => hbu2 (hmem b hm),
                      fun hm => hqu2 (hmem '"' hm)⟩] at h
                  exact Option.noConfusion h
          · -- array
            rw [skipWs_append_bar b hbws] at h
            cases hu3 : u2.dropWhile isJsonWs with
            | nil =>
                rw [hu3] at h
                simp only [List.nil_append] at h
                rw [if_neg (show b ≠ ']' by rcases hb with rfl | rfl <;> decide)] at h
                rcases hpe : parseElems f (b :: w) with - | ⟨p1, p2⟩
                · rw [hpe] at h
                  exact Option.noConfusion h
                · rw [hpe] at h
                  simp only [Option.map_some', Option.some.injEq,
                    Prod.mk.injEq] at h
                  have := parseElems_barrier b hb f (b :: w) p1 p2 hpe
                    ⟨[], w, rfl, by simp, by simp⟩
                  rw [← h.2]
                  exact this
            | cons c2 u4 =>
                rw [hu3] at h
                simp only [List.cons_append] at h
                have hmem : ∀ x ∈ c2 :: u4, x ∈ u2 :=
                  fun x hx => (List.dropWhile_sublist _).subset (hu3 ▸ hx)
                by_cases hc2 : c2 = ']'
                · rw [if_pos hc2] at h
                  simp only [Option.some.injEq, Prod.mk.injEq] at h
                  refine ⟨u4, w, h.2.symm, ?_, ?_⟩
                  · exact fun hm => hbu2 (hmem b (List.mem_cons_of_mem c2 hm))
                  · exact fun hm => hqu2 (hmem '"' (List.mem_cons_of_mem c2 hm))
                · rw [if_neg hc2] at h
                  rcases hpe : parseElems f (c2 :: (u4 ++ b :: w)) with - | ⟨p1, p2⟩
                  · rw [hpe] at h
                    exact Option.noConfusion h
                  · rw [hpe] at h
                    simp only [Option.map_some', Option.some.injEq,
                      Prod.mk.injEq] at h
                    have := parseElems_barrier b hb f (c2 :: (u4 ++ b :: w)) p1 p2 hpe
                      ⟨c2 :: u4, w, rfl,
                        fun hm => hbu2 (hmem b hm),
                        fun hm => hqu2 (hmem '"' hm)⟩
                    rw [← h.2]
                    exact this
          · -- string: impossible, no quote before the barrier
            exact absurd (h3 ▸ List.mem_cons_self c u2) hqu
          · -- true
            split at h
            · rename_i r2 heq
              simp only [Option.some.injEq, Prod.mk.injEq] at h
              obtain ⟨u3, hu23, hr2⟩ := append_barrier b ['r', 'u', 'e'] u2 r2 w
                heq.symm (by rcases hb with rfl | rfl <;> decide) hbu2
              refine ⟨u3, w, by rw [← h.2, hr2], ?_, ?_⟩
              · exact fun hm => hbu2 (hu23 ▸ List.mem_append_right _ hm)
              · exact fun hm => hqu2 (hu23 ▸ List.mem_append_right _ hm)
            · exact Option.noConfusion h
          · -- false
            split at h
            · rename_i r2 heq
              simp only [Option.some.injEq, Prod.mk.injEq] at h
              obtain ⟨u3, hu23, hr2⟩ := append_barrier b ['a', 'l', 's', 'e'] u2 r2 w
                heq.symm (by rcases hb with rfl | rfl <;> decide) hbu2
              refine ⟨u3, w, by rw [← h.2, hr2], ?_, ?_⟩
              · exact fun hm => hbu2 (hu23 ▸ List.mem_append_right _ hm)
              · exact fun hm => hqu2 (hu23 ▸ List.mem_append_right _ hm)
            · exact Option.noConfusion h
          · -- null
            split at h
            · rename_i r2 heq
              simp only [Option.some.injEq, Prod.mk.injEq] at h
              obtain ⟨u3, hu23, hr2⟩ := append_barrier b ['u', 'l', 'l'] u2 r2 w
                heq.symm (by rcases hb with rfl | rfl <;> decide) hbu2
              refine ⟨u3, w, by rw [← h.2, hr2], ?_, ?_⟩
              · exact fun hm => hbu2 (hu23 ▸ List.mem_append_right _ hm)
              · exact fun hm => hqu2 (hu23 ▸ List.mem_append_right _ hm)
            · exact Option.noConfusion h
          · -- NaN
            split at h
            · rename_i r2 heq
              simp only [Option.some.injEq, Prod.mk.injEq] at h
              obtain ⟨u3, hu23, hr2⟩ := append_barrier b ['a', 'N'] u2 r2 w
                heq.symm (by rcases hb with rfl | rfl <;> decide) hbu2
              refine ⟨u3, w, by rw [← h.2, hr2], ?_, ?_⟩
              · exact fun hm => hbu2 (hu23 ▸ List.mem_append_right _ hm)
              · exact fun hm => hqu2 (hu23 ▸ List.mem_append_right _ hm)
            · exact Option.noConfusion h
          · -- Infinity
            split at h
            · rename_i r2 heq
              simp only [Option.some.injEq, Prod.mk.injEq] at h
              obtain ⟨u3, hu23, hr2⟩ := append_barrier b
                ['n', 'f', 'i', 'n', 'i', 't', 'y'] u2 r2 w
                heq.symm (by rcases hb with rfl | rfl <;> decide) hbu2
              refine ⟨u3, w, by rw [← h.2, hr2], ?_, ?_⟩
              · exact fun hm => hbu2 (hu23 ▸ List.mem_append_right _ hm)
              · exact fun hm => hqu2 (hu23 ▸ List.mem_append_right _ hm)
            · exact Option.noConfusion h
          · -- minus: -Infinity literal or negative number
            split at h
            · rename_i r2 heq
              simp only [Option.some.injEq, Prod.mk.injEq] at h
              obtain ⟨u3, hu23, hr2⟩ := append_barrier b
                ['I', 'n', 'f', 'i', 'n', 'i', 't', 'y'] u2 r2 w
                heq.symm (by rcases hb with rfl | rfl <;> decide) hbu2
              refine ⟨u3, w, by rw [← h.2, hr2], ?_, ?_⟩
              · exact fun hm => hbu2 (hu23 ▸ List.mem_append_right _ hm)
              · exact fun hm => hqu2 (hu23 ▸ List.mem_append_right _ hm)
            · exact parseNum_barrier b (marker_numBarrier b hb) true _ v r h
                ⟨u2, w, rfl, hbu2, hqu2⟩
          · -- number
            exact parseNum_barrier b (marker_numBarrier b hb) false _ v r h
              ⟨c :: u2, w, rfl, hbu, hqu⟩
  termination_by f => f

/-- A successful `parseElems` on clean input leaves a clean remainder. -/
theorem parseElems_barrier (b : Char) (hb : b = btick ∨ b = '~') :
    ∀ (f : Nat) (cs : List Char) (xs : JList) (r : List Char),
      parseElems f cs = some (xs, r) → Clean b cs → Clean b r
  | 0, cs, xs, r, h, _ => by simp [parseElems] at h
  | f + 1, cs, xs, r, h, hc => by
      have hbws : isJsonWs b = false := by rcases hb with rfl | rfl <;> decide
      simp only [parseElems] at h
      rcases hpv : parseVal f cs with - | ⟨x, r1⟩
      · rw [hpv] at h
        exact Option.noConfusion h
      · rw [hpv] at h
        simp only [] at h
        obtain ⟨u1, w1, he1, hbu1, hqu1⟩ := parseVal_barrier b hb f cs x r1 hpv hc
        rw [he1, skipWs_append_bar b hbws] at h
        cases hu3 : u1.dropWhile isJsonWs with
        | nil =>
            rw [hu3] at h
            simp only [List.nil_append] at h
            rw [if_neg (show b ≠ ',' by rcases hb with rfl | rfl <;> decide),
                if_neg (show b ≠ ']' by rcases hb with rfl | rfl <;> decide)] at h
            exact Option.noConfusion h
        | cons c2 u4 =>
            rw [hu3] at h
            simp only [List.cons_append] at h
            have hmem : ∀ x ∈ c2 :: u4, x ∈ u1 :=
              fun x hx => (List.dropWhile_sublist _).subset (hu3 ▸ hx)
            by_cases hcomma : c2 = ','
            · rw [if_pos hcomma] at h
              rcases hpe : parseElems f (skipWs (u4 ++ b :: w1)) with - | ⟨p1, p2⟩
              · rw [hpe] at h
                exact Option.noConfusion h
              · rw [hpe] at h
                simp only [Option.map_some', Option.some.injEq,
                  Prod.mk.injEq] at h
                have := parseElems_barrier b hb f _ p1 p2 hpe
                  (clean_skipWs b hbws _
                    ⟨u4, w1, rfl,
                      fun hm => hbu1 (hmem b (List.mem_cons_of_mem c2 hm)),
                      fun hm => hqu1 (hmem '"' (List.mem_cons_of_mem c2 hm))⟩)
                rw [← h.2]
                exact this
            · by_cases hcl : c2 = ']'
              · rw [if_neg hcomma, if_pos hcl] at h
                simp only [Option.some.injEq, Prod.mk.injEq] at h
                refine ⟨u4, w1, h.2.symm, ?_, ?_⟩
                · exact fun hm => hbu1 (hmem b (List.mem_cons_of_mem c2 hm))
                · exact fun hm => hqu1 (hmem '"' (List.mem_cons_of_mem c2 hm))
              · rw [if_neg hcomma, if_neg hcl] at h
                exact Option.noConfusion h
  termination_by f => f

end

/-- Strategy 1 of `safe_json_parse` fails on clean text: the whole-input
decode can never consume the fence marker. -/
theorem loads_barrier (b : Char) (hb : b = btick ∨ b = '~') (s : String)
    (hc : Clean b s.data) : loads s = none := by
  have hbws : isJsonWs b = false := by rcases hb with rfl | rfl <;> decide
  have hc1 : Clean b (skipWs s.data) := clean_skipWs b hbws _ hc
  rcases hpv : parseVal (2 * (skipWs s.data).length + 2) (skipWs s.data)
    with - | ⟨v, rest⟩
  · simp [loads, hpv]
  · have hc2 : Clean b rest :=
      parseVal_barrier b hb _ _ v rest hpv hc1
    have hne : skipWs rest ≠ [] := clean_skipWs_ne_nil b hbws rest hc2
    simp [loads, hpv, hne]

/-- `_try_json_loads` likewise fails on clean text. -/
theorem pyTryLoads_barrier (b : Char) (hb : b = btick ∨ b = '~') (s : String)
    (hc : Clean b s.data) : pyTryLoads s = none := by
  simp [pyTryLoads, loads_barrier b hb s hc]

/-! ## Shape of the stripped wrapped text -/

/-- The reverse of a nonempty list whose members all satisfy a predicate
starts with a member. -/
theorem rev_head_of_all (l : List Char) (P : Char → Prop) (hne : l ≠ [])
    (hall : ∀ c ∈ l, P c) : ∃ c cs, l.reverse = c :: cs ∧ P c := by
  cases hr : l.reverse with
  | nil => exact absurd (List.reverse_eq_nil_iff.mp hr) hne
  | cons c cs =>
      refine ⟨c, cs, rfl, hall c ?_⟩
      exact List.mem_reverse.mp (hr ▸ List.mem_cons_self c cs)

/-- A printed digit block is nonempty. -/
theorem digitsOnto_ne_nil (n : Nat) : digitsOnto n [] ≠ [] := by
  obtain ⟨d, tl, -, hrep⟩ := digitsOnto_cons n
  simp [hrep]

/-- A printed digit block ends in a digit, hence in a non-whitespace
character. -/
theorem digitsOnto_rev (n : Nat) : ∃ c cs,
    (digitsOnto n []).reverse = c :: cs ∧ isPyWs c = false := by
  refine rev_head_of_all _ _ (digitsOnto_ne_nil n) ?_
  intro c hm
  obtain ⟨d, hd, rfl⟩ := mem_digitsOnto n c hm
  exact (digitChar_shape d hd).1

/-- A printed integer ends in a non-whitespace character. -/
theorem intChars_rev (m : Int) : ∃ c cs,
    (intChars m).reverse = c :: cs ∧ isPyWs c = false := by
  by_cases hm : m < 0
  · obtain ⟨c, cs, hrev, hcw⟩ := digitsOnto_rev (-m).toNat
    exact ⟨c, cs ++ ['-'], by simp [intChars, hm, hrev], hcw⟩
  · obtain ⟨c, cs, hrev, hcw⟩ := digitsOnto_rev m.toNat
    exact ⟨c, cs, by simp [intChars, hm, hrev], hcw⟩

/-- The last character of a printed value is never whitespace. -/
theorem dumpsL_rev (v : J) : ∃ c cs,
    (dumpsL v).reverse = c :: cs ∧ isPyWs c = false := by
  cases v with
  | jnull => exact ⟨'l', _, rfl, by decide⟩
  | jbool b => cases b with
      | true => exact ⟨'e', _, rfl, by decide⟩
      | false => exact ⟨'e', _, rfl, by decide⟩
  | jnan => exact ⟨'N', _, rfl, by decide⟩
  | jinf => exact ⟨'y', _, rfl, by decide⟩
  | jninf => exact ⟨'y', _, rfl, by decide⟩
  | jstr s =>
      exact ⟨'"', (escBody s.data).reverse ++ ['"'],
        by simp [dumpsL, strLit], by decide⟩
  | jarr xs =>
      exact ⟨']', (dumpsArr xs).reverse ++ ['['],
        by simp [dumpsL], by decide⟩
  | jobj kvs =>
      exact ⟨rbrace, (dumpsObj kvs).reverse ++ [lbrace],
        by simp [dumpsL], by decide⟩
  | jnum m e =>
      by_cases he : e = 0
      · obtain ⟨c, cs, hrev, hcw⟩ := intChars_rev m
        exact ⟨c, cs, by simp [dumpsL, numChars, he, hrev], hcw⟩
      · obtain ⟨c, cs, hrev, hcw⟩ := intChars_rev e
        refine ⟨c, cs ++ 'e' :: (intChars m).reverse, ?_, hcw⟩
        simp [dumpsL, numChars, he, hrev]

/-- `str.strip` of a printed value plus a trailing newline recovers it. -/
theorem stripL_payload (v : J) :
    stripL (dumpsL v ++ ['\n']) = dumpsL v := by
  obtain ⟨c, cs, hx, hws, -, -, -⟩ := dumpsL_head v
  obtain ⟨d, ds, hrev, hdws⟩ := dumpsL_rev v
  have h1 : List.dropWhile isPyWs (dumpsL v ++ ['\n']) = dumpsL v ++ ['\n'] := by
    rw [hx]
    simp [List.dropWhile_cons, hws]
  have h2 : (dumpsL v ++ ['\n']).reverse = '\n' :: (dumpsL v).reverse := by
    simp
  have h3 : List.dropWhile isPyWs ('\n' :: (dumpsL v).reverse) =
      (dumpsL v).reverse := by
    rw [hrev]
    simp [List.dropWhile_cons, hdws,
      show isPyWs ('\n') = true from by decide]
  unfold stripL
  rw [h1, h2, h3, List.reverse_reverse]

/-- `dropWhile` stops no later than a failing head of the second part. -/
theorem dropWhile_append_head (q : Char → Bool) :
    ∀ (p X : List Char) (c : Char) (cs : List Char), X = c :: cs →
      q c = false → List.dropWhile q (p ++ X) = List.dropWhile q p ++ X
  | [], X, c, cs, hX, hc => by
      subst hX
      simp [List.dropWhile_cons, hc]
  | a :: p, X, c, cs, hX, hc => by
      by_cases ha : q a = true
      · simp only [List.cons_append, List.dropWhile_cons, ha, if_true]
        exact dropWhile_append_head q p X c cs hX hc
      · simp [List.dropWhile_cons, eq_false_of_ne_true ha]

/-- `str.strip` around a block with non-whitespace first and last
characters strips the prose on both sides only. -/
theorem stripL_decomp (p mid trail : List Char)
    (hh : ∃ c cs, mid = c :: cs ∧ isPyWs c = false)
    (hl : ∃ c cs, mid.reverse = c :: cs ∧ isPyWs c = false) :
    stripL (p ++ mid ++ trail) =
      List.dropWhile isPyWs p ++ mid ++
        (List.dropWhile isPyWs trail.reverse).reverse := by
  obtain ⟨c, cs, hc, hcw⟩ := hh
  obtain ⟨d, ds, hd, hdw⟩ := hl
  unfold stripL
  have h1 : List.dropWhile isPyWs (p ++ mid ++ trail) =
      List.dropWhile isPyWs p ++ (mid ++ trail) := by
    rw [List.append_assoc]
    exact dropWhile_append_head isPyWs p (mid ++ trail) c (cs ++ trail)
      (by rw [hc]; simp) hcw
  rw [h1]
  have h2 : (List.dropWhile isPyWs p ++ (mid ++ trail)).reverse =
      trail.reverse ++ (mid.reverse ++ (List.dropWhile isPyWs p).reverse) := by
    simp
  rw [h2]
  have h3 : List.dropWhile isPyWs
      (trail.reverse ++ (mid.reverse ++ (List.dropWhile isPyWs p).reverse)) =
      List.dropWhile isPyWs trail.reverse ++
        (mid.reverse ++ (List.dropWhile isPyWs p).reverse) :=
    dropWhile_append_head isPyWs _ _ d (ds ++ (List.dropWhile isPyWs p).reverse)
      (by rw [hd]; simp) hdw
  rw [h3]
  simp [List.reverse_append, List.append_assoc]

/-! ## Locating the fenced block -/

/-- No marker starts at a position holding a non-marker character. -/
theorem markerAt_false (c : Char) (h1 : c ≠ btick) (h2 : c ≠ '~')
    (l : List Char) : markerAt (c :: l) = false := by
  match l with
  | [] => rfl
  | [b] => rfl
  | b :: c2 :: t => simp [markerAt, h1, h2]

/-- `FENCE_RE.search` skips any marker-free prefix. -/
theorem fenceSearch_skip :
    ∀ (q rest : List Char), (∀ c ∈ q, c ≠ btick ∧ c ≠ '~') →
      fenceSearch (q ++ rest) = fenceSearch rest
  | [], rest, _ => rfl
  | c :: q, rest, hq => by
      have hc := hq c (List.mem_cons_self c q)
      simp only [List.cons_append, fenceSearch, List.append_eq,
        markerAt_false c hc.1 hc.2 (q ++ rest), Bool.false_eq_true, if_false]
      exact fenceSearch_skip q rest fun x hx => hq x (List.mem_cons_of_mem c hx)

/-- The lazy content group collects a marker-free prefix up to the first
marker. -/
theorem contentScan_pre :
    ∀ (q rest : List Char), (∀ c ∈ q, c ≠ btick ∧ c ≠ '~') →
      markerAt rest = true → contentScan (q ++ rest) = some q
  | [], rest, _, hm => by
      cases rest with
      | nil => simp [markerAt] at hm
      | cons c t => simp [contentScan, hm]
  | c :: q, rest, hq, hm => by
      have hc := hq c (List.mem_cons_self c q)
      simp only [List.cons_append, contentScan, List.append_eq,
        markerAt_false c hc.1 hc.2 (q ++ rest), Bool.false_eq_true, if_false]
      rw [contentScan_pre q rest (fun x hx => hq x (List.mem_cons_of_mem c hx)) hm]
      rfl

/-- `takeWhile` runs through a satisfying block and stops at a failing
head. -/
theorem takeWhile_complete (P : Char → Bool) :
    ∀ (a : List Char) (c0 : Char) (R : List Char),
      (∀ c ∈ a, P c = true) → P c0 = false →
      (a ++ c0 :: R).takeWhile P = a
  | [], c0, R, _, hc0 => by simp [List.takeWhile_cons, hc0]
  | c :: a, c0, R, ha, hc0 => by
      simp only [List.cons_append, List.takeWhile_cons,
        ha c (List.mem_cons_self c a), if_true, List.cons.injEq, true_and]
      exact takeWhile_complete P a c0 R
        (fun x hx => ha x (List.mem_cons_of_mem c hx)) hc0

/-- A language-tag character is not whitespace. -/
theorem isPyWs_tagChar (c : Char) (h : isTagChar c = true) :
    isPyWs c = false := by
  by_contra hcon
  have hws : isPyWs c = true := by
    revert hcon
    cases isPyWs c <;> simp
  simp only [isPyWs, Bool.or_eq_true, decide_eq_true_eq] at hws
  rcases hws with ((((rfl | rfl) | rfl) | rfl) | rfl) | rfl <;>
    exact absurd h (by decide)

/-- The opening of the fence pattern after the marker: a nonempty tag run
followed by a newline and non-whitespace content consumes through that
newline. -/
theorem openRest_tag (tag R : List Char) (htag : tag ≠ [])
    (htc : ∀ c ∈ tag, isTagChar c = true)
    (hR : ∃ c cs, R = c :: cs ∧ isPyWs c = false) :
    openRest (tag ++ '\n' :: R) = some R := by
  obtain ⟨c, cs, hAc, hAw⟩ := hR
  have h1 : (tag ++ '\n' :: R).takeWhile isPyWs = [] := by
    cases tag with
    | nil => exact absurd rfl htag
    | cons t0 tag2 =>
        simp [List.takeWhile_cons,
          isPyWs_tagChar t0 (htc t0 (List.mem_cons_self t0 tag2))]
  have h2 : (tag ++ '\n' :: R).takeWhile isTagChar = tag :=
    takeWhile_complete isTagChar tag '\n' R htc (by decide)
  have h3 : (tag ++ '\n' :: R).drop tag.length = '\n' :: R :=
    List.drop_left tag ('\n' :: R)
  have h4 : ('\n' :: R).takeWhile isPyWs = ['\n'] := by
    rw [hAc]
    simp [List.takeWhile_cons, hAw,
      show isPyWs ('\n') = true from by decide]
  have h5 : tag.length ≠ 0 := fun h => htag (List.length_eq_zero.mp h)
  simp only [openRest, h1, List.length_nil, List.drop_zero, h2, h3, h4]
  rw [if_neg h5]
  simp [lastIdxNl, hAc]

/-- A triple marker is a marker. -/
theorem markerAt_triple (b : Char) (hb : b = btick ∨ b = '~') (l : List Char) :
    markerAt (b :: b :: b :: l) = true := by
  rcases hb with rfl | rfl <;> simp [markerAt]

/-- The fence regex on the wrapped text finds exactly the payload plus its
trailing newline. -/
theorem fenceSearch_wrapped (b : Char) (hb : b = btick ∨ b = '~')
    (p2 tag pay t2 : List Char)
    (hp : ∀ c ∈ p2, c ≠ btick ∧ c ≠ '~')
    (htag1 : tag ≠ []) (htag2 : ∀ c ∈ tag, isTagChar c = true)
    (hpay : ∀ c ∈ pay, c ≠ btick ∧ c ≠ '~')
    (hpayh : ∃ c cs, pay = c :: cs ∧ isPyWs c = false) :
    fenceSearch
      (p2 ++ b :: b :: b :: (tag ++ '\n' :: (pay ++ '\n' :: b :: b :: b :: t2))) =
      some (pay ++ ['\n']) := by
  rw [fenceSearch_skip p2 _ hp]
  have hopen : openRest (tag ++ '\n' :: (pay ++ '\n' :: b :: b :: b :: t2)) =
      some (pay ++ '\n' :: b :: b :: b :: t2) := by
    apply openRest_tag tag _ htag1 htag2
    obtain ⟨c, cs, hc, hw⟩ := hpayh
    exact ⟨c, cs ++ '\n' :: b :: b :: b :: t2, by rw [hc]; simp, hw⟩
  have hcont : contentScan (pay ++ '\n' :: b :: b :: b :: t2) =
      some (pay ++ ['\n']) := by
    rw [show pay ++ '\n' :: b :: b :: b :: t2 =
        (pay ++ ['\n']) ++ (b :: b :: b :: t2) from by simp]
    refine contentScan_pre (pay ++ ['\n']) (b :: b :: b :: t2) ?_
      (markerAt_triple b hb t2)
    intro c hc
    rcases List.mem_append.mp hc with hc | hc
    · exact hpay c hc
    · simp at hc
      subst hc
      rcases hb with rfl | rfl <;> exact ⟨by decide, by decide⟩
  simp only [fenceSearch]
  rw [markerAt_triple b hb]
  rw [if_pos rfl]
  simp only [List.drop_succ_cons, List.drop_zero]
  rw [hopen]
  simp only []
  rw [hcont]

/-- C5 (amended): the Response Parser round trip. Wrapping the serialized
value in a language-tagged fence, between prose free of fence-marker and
quote characters and arbitrary trailing text, decodes back to the value —
provided the value is not `null` (which `_try_json_loads` conflates with
failure) and its serialization contains no marker characters. -/
theorem C5_response_parser_roundtrip
    (b : Char) (hb : b = btick ∨ b = '~')
    (p tag trail : List Char) (v fallback : J)
    (hp : ∀ c ∈ p, c ≠ btick ∧ c ≠ '~' ∧ c ≠ '"')
    (htag1 : tag ≠ []) (htag2 : ∀ c ∈ tag, isTagChar c = true)
    (hpay : ∀ c ∈ dumpsL v, c ≠ btick ∧ c ≠ '~')
    (hv : v ≠ .jnull) :
    safe_json_parse
      ⟨p ++ b :: b :: b ::
        (tag ++ '\n' :: (dumpsL v ++ '\n' :: b :: b :: b :: trail))⟩
      fallback = v := by
  have hbws : isPyWs b = false := by rcases hb with rfl | rfl <;> decide
  obtain ⟨hc0, hcs0, hx0, hw0, -, -, -⟩ := dumpsL_head v
  -- the marker block between the prose and the trailing text
  have hT : p ++ b :: b :: b ::
      (tag ++ '\n' :: (dumpsL v ++ '\n' :: b :: b :: b :: trail)) =
      p ++ (b :: b :: b ::
        (tag ++ '\n' :: (dumpsL v ++ '\n' :: [b, b, b]))) ++ trail := by
    simp
  have hmid_h : ∃ c cs,
      (b :: b :: b :: (tag ++ '\n' :: (dumpsL v ++ '\n' :: [b, b, b]))) =
        c :: cs ∧ isPyWs c = false :=
    ⟨b, _, rfl, hbws⟩
  have hmid_l : ∃ c cs,
      (b :: b :: b ::
        (tag ++ '\n' :: (dumpsL v ++ '\n' :: [b, b, b]))).reverse =
        c :: cs ∧ isPyWs c = false := by
    refine ⟨b, b :: b :: ((dumpsL v ++ ['\n']).reverse ++
      ('\n' :: tag.reverse ++ [b, b, b])), ?_, hbws⟩
    simp [List.append_assoc]
  have hstr : stripL (p ++ b :: b :: b ::
      (tag ++ '\n' :: (dumpsL v ++ '\n' :: b :: b :: b :: trail))) =
      List.dropWhile isPyWs p ++
        (b :: b :: b :: (tag ++ '\n' :: (dumpsL v ++ '\n' :: [b, b, b]))) ++
        (List.dropWhile isPyWs trail.reverse).reverse := by
    rw [hT]
    exact stripL_decomp p _ trail hmid_h hmid_l
  have hp2 : ∀ c ∈ List.dropWhile isPyWs p, c ≠ btick ∧ c ≠ '~' ∧ c ≠ '"' :=
    fun c hc => hp c ((List.dropWhile_sublist _).subset hc)
  -- strategy 1 fails: the whole text is clean
  have h1 : pyTryLoads (strip ⟨p ++ b :: b :: b ::
      (tag ++ '\n' :: (dumpsL v ++ '\n' :: b :: b :: b :: trail))⟩) = none := by
    apply pyTryLoads_barrier b hb
    show Clean b (stripL _)
    rw [hstr]
    refine ⟨List.dropWhile isPyWs p,
      b :: b :: (tag ++ '\n' :: (dumpsL v ++ '\n' :: [b, b, b])) ++
        (List.dropWhile isPyWs trail.reverse).reverse, by simp, ?_, ?_⟩
    · intro hm
      rcases hb with rfl | rfl
      · exact (hp2 _ hm).1 rfl
      · exact (hp2 _ hm).2.1 rfl
    · intro hm
      exact (hp2 _ hm).2.2 rfl
  -- strategy 2 finds the payload
  have h2 : extract_from_fence (strip ⟨p ++ b :: b :: b ::
      (tag ++ '\n' :: (dumpsL v ++ '\n' :: b :: b :: b :: trail))⟩) =
      some ⟨dumpsL v⟩ := by
    show (fenceSearch (stripL _)).map (fun cs => strip ⟨cs⟩) = _
    rw [hstr]
    rw [show List.dropWhile isPyWs p ++
        (b :: b :: b :: (tag ++ '\n' :: (dumpsL v ++ '\n' :: [b, b, b]))) ++
        (List.dropWhile isPyWs trail.reverse).reverse =
        List.dropWhile isPyWs p ++ b :: b :: b ::
          (tag ++ '\n' :: (dumpsL v ++ '\n' :: b :: b :: b ::
            (List.dropWhile isPyWs trail.reverse).reverse)) from by simp]
    rw [fenceSearch_wrapped b hb _ tag (dumpsL v) _
      (fun c hc => ⟨(hp2 c hc).1, (hp2 c hc).2.1⟩) htag1 htag2 hpay
      ⟨hc0, hcs0, hx0, hw0⟩]
    simp only [Option.map_some']
    congr 1
    show (⟨stripL (dumpsL v ++ ['\n'])⟩ : String) = _
    rw [stripL_payload]
  have h3 : pyTryLoads ⟨dumpsL v⟩ = some v := by
    unfold pyTryLoads
    rw [show (⟨dumpsL v⟩ : String) = dumps v from rfl, loads_dumps v]
    cases v with
    | jnull => exact absurd rfl hv
    | jbool b => cases b <;> rfl
    | jnum m e => rfl
    | jnan => rfl
    | jinf => rfl
    | jninf => rfl
    | jstr s => rfl
    | jarr xs => rfl
    | jobj kvs => rfl
  have hfne : (⟨dumpsL v⟩ : String) ≠ "" := by
    intro hcon
    have := congrArg String.data hcon
    rw [hx0] at this
    simp at this
  have hne : (⟨p ++ b :: b :: b ::
      (tag ++ '\n' :: (dumpsL v ++ '\n' :: b :: b :: b :: trail))⟩ : String) ≠
      "" := by
    intro hcon
    have := congrArg String.data hcon
    simp at this
  rw [safe_json_parse, if_neg hne]
  simp only [h1, h2, h3]
  rw [if_neg hfne]

/-- C5 witness: a concrete prose-wrapped fenced serialization decodes back
to the serialized object. -/
theorem C5_response_parser_roundtrip_witness :
    safe_json_parse
      ⟨("Sure! Here is the result:\n").data ++ btick :: btick :: btick ::
        (("json").data ++ '\n' ::
          (dumpsL (J.jobj (.cons ("score") (J.jnum 1 0) .nil)) ++
            '\n' :: btick :: btick :: btick :: (" Done.").data))⟩
      (J.jobj .nil) = J.jobj (.cons ("score") (J.jnum 1 0) .nil) :=
  C5_response_parser_roundtrip btick (Or.inl rfl)
    (("Sure! Here is the result:\n").data) (("json").data) ((" Done.").data)
    (J.jobj (.cons ("score") (J.jnum 1 0) .nil)) (J.jobj .nil)
    (by decide) (by decide) (by decide) (by decide) (by decide)

/-- C5 counterexamples to the unrestricted round trip: (1) prose holding a
decoy fence ahead of the real one loses an array payload to the fallback;
(2) a fence marker inside a payload string truncates the content, and the
balanced-brace rescue returns an inner object instead of the array; (3)
with no language tag, a bare `true` payload is consumed as the tag and the
fallback is returned; (4) a `null` payload is conflated with decode failure
and replaced by the fallback. -/
theorem C5_counterexample :
    (safe_json_parse
        ⟨("Here is code:\n```\nnot json\n```\nand the answer:\n```json\n").data ++
          dumpsL (J.jarr (.cons (J.jnum 1 0) (.cons (J.jnum 2 0) .nil))) ++
          ("\n```").data⟩ (J.jstr ("FB")) =
        J.jstr ("FB")) ∧
    (safe_json_parse
        ⟨("```json\n").data ++
          dumpsL (J.jarr (.cons
            (J.jobj (.cons ("a") (J.jstr ("x```y")) .nil)) .nil)) ++
          ("\n```").data⟩ (J.jstr ("FB")) =
        J.jobj (.cons ("a") (J.jstr ("x```y")) .nil)) ∧
    (safe_json_parse
        ⟨("```\n").data ++ dumpsL (J.jbool true) ++ ("\n```").data⟩
        (J.jstr ("FB")) = J.jstr ("FB")) ∧
    (safe_json_parse
        ⟨("```json\n").data ++ dumpsL J.jnull ++ ("\n```").data⟩
        (J.jstr ("FB")) = J.jstr ("FB")) := by
  refine ⟨?_, ?_, ?_, ?_⟩ <;> decide

end InsClaims
